import Mathlib

/-!
Verification of the stream-transform stages of `gulp-sass-alt` (src/index.js).

The development shallowly embeds the four data paths the claims are about:

* `addUnique` / `libraries` — the library-path collector (src/index.js lines 24-50);
* `transpile` — the per-file double `sass.render` invocation, the source-map
  sanitizer of `successHandler`, and the error-marker output of `errorHandler`
  (src/index.js lines 60-146), with `node-sass` treated as a black-box oracle;
* `sassReporter` — error-marker classification, message formatting and the
  end-of-stream report (src/index.js lines 154-198);
* a small JSON value model with a printer matching `JSON.stringify(v, null, '  ')`
  and a recursive-descent reader matching `JSON.parse`, used by the sanitizer.

Model boundaries (stated once here): JavaScript strings are modelled as Lean
`String`/`List Char`; JSON numbers are restricted to decimal naturals (the only
numbers appearing in source-map JSON); `path` functions follow the posix rules of
node's `path` module; the working directory passed to `minimatch.makeRe` is
assumed to contain no glob metacharacters, so the compiled pattern matches the
directory literally with `/` also matching `\`.
-/

/-! ## Generic list helpers -/

/-- Append-if-absent, the primitive both `addUnique` (src/index.js line 27) and the
reporter's message buffer (line 177) use via `indexOf(x) < 0` followed by `push`. -/
def insertU {α : Type} [DecidableEq α] (l : List α) (x : α) : List α :=
  if x ∈ l then l else l ++ [x]

/-- First-seen-order deduplication: fold `insertU` over the whole input. -/
def dedupF {α : Type} [DecidableEq α] (l : List α) : List α :=
  l.foldl insertU []

/-- Replace the first occurrence of `pat` in `s` by the empty string, as
`String.prototype.replace(pat, '')` does for a plain-string pattern. -/
def replaceFirst : List Char → List Char → List Char
  | s, pat =>
    if pat.isPrefixOf s then s.drop pat.length
    else
      match s with
      | [] => []
      | c :: t => c :: replaceFirst t pat

/-! ## Node `path` helpers (posix model) -/

/-- Model of `path.basename`: the component after the last `/`. -/
def basenameLC (p : List Char) : List Char :=
  (p.reverse.takeWhile (fun c => c != '/')).reverse

/-- Model of `path.extname`: the suffix from the last `.` of the basename, empty when the
only `.` is the leading character (node returns `''` for `.bashrc`). -/
def extnameLC (p : List Char) : List Char :=
  let bn := basenameLC p
  let r := bn.reverse.takeWhile (fun c => c != '.')
  if r.length + 1 < bn.length then '.' :: r.reverse else []

/-- Model of `path.basename(p, path.extname(p))`: basename with its extension stripped
when the extension is a proper suffix. -/
def sourceNameLC (p : List Char) : List Char :=
  let bn := basenameLC p
  let e := extnameLC p
  if e ≠ [] ∧ e.length < bn.length ∧ e.isSuffixOf bn then bn.take (bn.length - e.length)
  else bn

/-- Model of `file.path.replace(path.basename(file.path), '')` from src/index.js line 65. -/
def sourcePathS (p : String) : String :=
  ⟨replaceFirst p.data (basenameLC p.data)⟩

/-- Model of `path.basename(file.path, path.extname(file.path))` from src/index.js line 66. -/
def sourceNameS (p : String) : String :=
  ⟨sourceNameLC p.data⟩

/-- Split a path on `/`, drop empty and `.` segments, pop a segment on `..`
(staying at root when already empty): the normalization part of posix
`path.resolve`. -/
def normSegs : List (List Char) → List (List Char) → List (List Char)
  | acc, [] => acc.reverse
  | acc, s :: rest =>
    if s = [] ∨ s = ['.'] then normSegs acc rest
    else if s = ['.', '.'] then normSegs (acc.drop 1) rest
    else normSegs (s :: acc) rest

/-- Split a char list on `/`. -/
def splitSlash : List Char → List (List Char)
  | [] => [[]]
  | c :: t =>
    let r := splitSlash t
    if c = '/' then [] :: r
    else
      match r with
      | [] => [[c]]
      | h :: hs => (c :: h) :: hs

/-- Posix `path.resolve(p)` against an absolute process working directory. -/
def pathResolve (procCwd p : String) : String :=
  let full : List Char := if p.data.head? = some '/' then p.data else procCwd.data ++ '/' :: p.data
  let segs := normSegs [] (splitSlash full)
  ⟨'/' :: (segs.intersperse ['/']).flatten⟩

/-! ## The argument values `addUnique` can receive

`libraries` passes `addUnique` the (array of) construction-time arguments; the
JavaScript dispatch is on `value instanceof Array` and `typeof value === 'string'`,
with every other value (number, plain object, `null`, ...) falling through both
branches.  `JsArg.other` stands for any such non-string non-array value. -/

mutual
inductive JsArg where
  | str (s : String)
  | arr (xs : JsArgs)
  | other

inductive JsArgs where
  | nil
  | cons (hd : JsArg) (tl : JsArgs)
end

mutual
/-- Model of `addUnique` from src/index.js lines 24-30: recurse into arrays, append a
string when `libList.indexOf(value) < 0`, ignore anything else. -/
def addUnique : JsArg → List String → List String
  | .str s, l => if s ∈ l then l else l ++ [s]
  | .arr xs, l => addUniqueList xs l
  | .other, l => l

/-- Model of `value.forEach(addUnique)` over the elements of an array argument. -/
def addUniqueList : JsArgs → List String → List String
  | .nil, l => l
  | .cons x xs, l => addUniqueList xs (addUnique x l)
end

mutual
/-- The strings contained in an argument value, in depth-first order: what a
recursive flatten of the argument keeps. -/
def flatStrings : JsArg → List String
  | .str s => [s]
  | .arr xs => flatStringsList xs
  | .other => []

/-- Map of `flatStrings` over the elements of an array. -/
def flatStringsList : JsArgs → List String
  | .nil => []
  | .cons x xs => flatStrings x ++ flatStringsList xs
end

/-! ## File records -/

/-- An input file record (gulp/vinyl file): identity fields only, as `transpile`
never reads the content (src/index.js line 54). -/
structure SrcFile where
  cwd : String
  base : String
  path : String
deriving DecidableEq, Repr

/-- A record pushed downstream by `transpile`: a derived vinyl file plus the two
ad hoc side-channel fields the error path attaches. -/
structure OutRecord where
  cwd : String
  base : String
  path : String
  contents : Option String
  sassError : Option String
  sassSource : Option SrcFile
deriving DecidableEq, Repr

/-- The `libraries` stage (src/index.js lines 43-50) on a whole input sequence:
seed the shared list with the flattened explicit arguments, then add each
record's `base` and forward the record itself. -/
def librariesRun (args : JsArgs) (files : List SrcFile) : List String × List SrcFile :=
  (files.foldl (fun acc f => insertU acc f.base) (addUnique (.arr args) []), files)

/-! ## JSON values

`successHandler` goes through `JSON.parse` / `JSON.stringify(v, null, '  ')`
generically, so the sanitizer is embedded over a generic JSON value model.
`Json`, `JList` and `JObj` are mutually inductive (rather than nesting `List`)
so that every function below is structurally recursive and kernel-reducible. -/

mutual
inductive Json where
  | null
  | bool (b : Bool)
  | num (n : Nat)
  | str (s : List Char)
  | arr (xs : JList)
  | obj (kvs : JObj)

inductive JList where
  | nil
  | cons (hd : Json) (tl : JList)

inductive JObj where
  | nil
  | cons (key : List Char) (val : Json) (tl : JObj)
end

/-- Append one value at the end of a `JList`. -/
def JList.snoc : JList → Json → JList
  | .nil, v => .cons v .nil
  | .cons x xs, v => .cons x (xs.snoc v)

/-- Concatenation of `JList`s. -/
def JList.app : JList → JList → JList
  | .nil, ys => ys
  | .cons x xs, ys => .cons x (xs.app ys)

/-- Concatenation of `JObj`s. -/
def JObj.appO : JObj → JObj → JObj
  | .nil, o => o
  | .cons k v tl, o => .cons k v (tl.appO o)

/-- Head condition on the remaining input after a printed fragment. -/
def headNot (p : Char → Bool) : List Char → Prop
  | [] => True
  | c :: _ => p c = false

/-- JavaScript property assignment on an object literal built left to right:
an existing key keeps its position and receives the new value, a fresh key is
appended.  This is what `JSON.parse` does with (possibly duplicate) keys. -/
def insertKV : JObj → List Char → Json → JObj
  | .nil, k, v => .cons k v .nil
  | .cons k0 v0 tl, k, v => if k0 = k then .cons k0 v tl else .cons k0 v0 (insertKV tl k v)

/-- The keys of an object, in order. -/
def keysOf : JObj → List (List Char)
  | .nil => []
  | .cons k _ tl => k :: keysOf tl

/-- Membership of a key. -/
def keyMemB (kvs : JObj) (k : List Char) : Bool := (keysOf kvs).contains k

/-- Model of `delete obj[k]` on a parsed object (keys are unique after `JSON.parse`, so
removing every binding of `k` coincides with JavaScript `delete`). -/
def removeKey : JObj → List Char → JObj
  | .nil, _ => .nil
  | .cons k0 v0 tl, k => if k0 = k then removeKey tl k else .cons k0 v0 (removeKey tl k)

/-- Look up a key. -/
def lookupKey : JObj → List Char → Option Json
  | .nil, _ => none
  | .cons k0 v0 tl, k => if k0 = k then some v0 else lookupKey tl k

/-- No key occurs twice. -/
def nodupKeysB : List (List Char) → Bool
  | [] => true
  | k :: ks => !(ks.contains k) && nodupKeysB ks

mutual
/-- Well-formedness of a JSON value: every object has pairwise distinct keys.
All values produced by the reader below satisfy it. -/
def wfB : Json → Bool
  | .null => true
  | .bool _ => true
  | .num _ => true
  | .str _ => true
  | .arr xs => wfList xs
  | .obj kvs => nodupKeysB (keysOf kvs) && wfObjVals kvs

def wfList : JList → Bool
  | .nil => true
  | .cons x xs => wfB x && wfList xs

def wfObjVals : JObj → Bool
  | .nil => true
  | .cons _ v kvs => wfB v && wfObjVals kvs
end

/-! ## `JSON.stringify(v, null, '  ')` -/

/-- One hexadecimal digit, lower case, as `JSON.stringify` emits in `\u00XX`. -/
def hexDigitCh : Nat → Char
  | 0 => '0' | 1 => '1' | 2 => '2' | 3 => '3' | 4 => '4'
  | 5 => '5' | 6 => '6' | 7 => '7' | 8 => '8' | 9 => '9'
  | 10 => 'a' | 11 => 'b' | 12 => 'c' | 13 => 'd' | 14 => 'e' | 15 => 'f'
  | _ => '0'

/-- String escaping as performed by `JSON.stringify`: the two mandatory escapes,
the named control-character shortcuts, and `\u00XX` for remaining controls. -/
def escapeChar (c : Char) : List Char :=
  if c = '"' then ['\\', '"']
  else if c = '\\' then ['\\', '\\']
  else if c = '\n' then ['\\', 'n']
  else if c = '\r' then ['\\', 'r']
  else if c = '\t' then ['\\', 't']
  else if c = '\x08' then ['\\', 'b']
  else if c = '\x0c' then ['\\', 'f']
  else if c.toNat < 32 then ['\\', 'u', '0', '0', hexDigitCh (c.toNat / 16), hexDigitCh (c.toNat % 16)]
  else [c]

def escapeList : List Char → List Char
  | [] => []
  | c :: t => escapeChar c ++ escapeList t

/-- A JSON string literal. -/
def quoteStr (s : List Char) : List Char := '"' :: (escapeList s ++ ['"'])

def digitCh : Nat → Char
  | 0 => '0' | 1 => '1' | 2 => '2' | 3 => '3' | 4 => '4'
  | 5 => '5' | 6 => '6' | 7 => '7' | 8 => '8' | 9 => '9'
  | _ => '0'

/-- Decimal digit extraction with explicit fuel, so that the printer is
kernel-reducible; the fuel `n + 1` always suffices. -/
def natCharsAux : Nat → Nat → List Char → List Char
  | 0, _, acc => acc
  | fuel + 1, n, acc =>
    if n < 10 then digitCh n :: acc
    else natCharsAux fuel (n / 10) (digitCh (n % 10) :: acc)

/-- Decimal representation of a natural number. -/
def natChars (n : Nat) : List Char := natCharsAux (n + 1) n []

/-- Two spaces per nesting level: the `'  '` indent argument. -/
def indentJ (lvl : Nat) : List Char := List.replicate (2 * lvl) ' '

mutual
/-- Model of `JSON.stringify(v, null, '  ')` at nesting level `lvl`. -/
def printAt (lvl : Nat) : Json → List Char
  | .null => 'n' :: 'u' :: 'l' :: 'l' :: []
  | .bool true => 't' :: 'r' :: 'u' :: 'e' :: []
  | .bool false => 'f' :: 'a' :: 'l' :: 's' :: 'e' :: []
  | .num n => natChars n
  | .str s => quoteStr s
  | .arr .nil => ['[', ']']
  | .arr (.cons x xs) => '[' :: '\n' :: (printElems (lvl + 1) (.cons x xs) ++ '\n' :: (indentJ lvl ++ [']']))
  | .obj .nil => ['{', '}']
  | .obj (.cons k v kvs) => '{' :: '\n' :: (printMembers (lvl + 1) (.cons k v kvs) ++ '\n' :: (indentJ lvl ++ ['}']))

/-- The `,\n`-separated, indented element lines of a non-empty array. -/
def printElems (lvl : Nat) : JList → List Char
  | .nil => []
  | .cons x .nil => indentJ lvl ++ printAt lvl x
  | .cons x (.cons y ys) => indentJ lvl ++ printAt lvl x ++ ',' :: '\n' :: printElems lvl (.cons y ys)

/-- The `,\n`-separated, indented `"key": value` lines of a non-empty object. -/
def printMembers (lvl : Nat) : JObj → List Char
  | .nil => []
  | .cons k v .nil => indentJ lvl ++ quoteStr k ++ ':' :: ' ' :: printAt lvl v
  | .cons k v (.cons k2 v2 kvs) =>
    indentJ lvl ++ quoteStr k ++ ':' :: ' ' :: printAt lvl v ++ ',' :: '\n' :: printMembers lvl (.cons k2 v2 kvs)
end

/-! ## `JSON.parse` -/

/-- JSON whitespace. -/
def isJsonWs (c : Char) : Bool := c = ' ' || c = '\t' || c = '\n' || c = '\r'

def skipWs (cs : List Char) : List Char := cs.dropWhile isJsonWs

/-- Value of a hexadecimal digit character. -/
def hexVal (c : Char) : Nat :=
  if '0' ≤ c ∧ c ≤ '9' then c.toNat - 48
  else if 'a' ≤ c ∧ c ≤ 'f' then c.toNat - 87
  else if 'A' ≤ c ∧ c ≤ 'F' then c.toNat - 55
  else 0

/-- The single-character JSON escapes. -/
def unescCh : Char → Option Char
  | 'n' => some '\n'
  | '"' => some '"'
  | 't' => some '\t'
  | '\\' => some '\\'
  | 'r' => some '\r'
  | '/' => some '/'
  | 'f' => some '\x0c'
  | 'b' => some '\x08'
  | _ => none

/-- Read a JSON string body (the opening quote already consumed); returns the
decoded characters and the remaining input. -/
def parseStrBody : List Char → Option (List Char × List Char)
  | [] => none
  | c :: rest =>
    if c = '"' then some ([], rest)
    else if c = '\\' then
      match rest with
      | 'u' :: h1 :: h2 :: h3 :: h4 :: r =>
        (parseStrBody r).map
          (fun p => (Char.ofNat (hexVal h1 * 4096 + hexVal h2 * 256 + hexVal h3 * 16 + hexVal h4) :: p.1, p.2))
      | e :: r =>
        match unescCh e with
        | some u => (parseStrBody r).map (fun p => (u :: p.1, p.2))
        | none => none
      | [] => none
    else (parseStrBody rest).map (fun p => (c :: p.1, p.2))

/-- Decimal digits to a natural, most significant first. -/
def toNatDigits (ds : List Char) : Nat := ds.foldl (fun a c => 10 * a + (c.toNat - 48)) 0

mutual
/-- Recursive-descent JSON reader (model of `JSON.parse`; numbers restricted to
decimal naturals, the only numbers source-map JSON contains).  The fuel
decreases on every nested call; `parseJson` supplies input length plus one,
which `parseVal_print`-side lemmas show is always sufficient. -/
def parseVal : Nat → List Char → Option (Json × List Char)
  | 0, _ => none
  | n + 1, cs =>
    match skipWs cs with
    | [] => none
    | c :: t =>
      if c = '"' then
        match parseStrBody t with
        | some (s, r) => some (.str s, r)
        | none => none
      else if c = '[' then
        match skipWs t with
        | ']' :: t2 => some (.arr .nil, t2)
        | _ =>
          match parseItems n t .nil with
          | some (xs, r) => some (.arr xs, r)
          | none => none
      else if c = '{' then
        match skipWs t with
        | '}' :: t2 => some (.obj .nil, t2)
        | _ =>
          match parseMembers n t .nil with
          | some (kvs, r) => some (.obj kvs, r)
          | none => none
      else if c = 'n' then
        match t with
        | 'u' :: 'l' :: 'l' :: r => some (.null, r)
        | _ => none
      else if c = 't' then
        match t with
        | 'r' :: 'u' :: 'e' :: r => some (.bool true, r)
        | _ => none
      else if c = 'f' then
        match t with
        | 'a' :: 'l' :: 's' :: 'e' :: r => some (.bool false, r)
        | _ => none
      else if c.isDigit then
        some (.num (toNatDigits ((c :: t).takeWhile Char.isDigit)), (c :: t).dropWhile Char.isDigit)
      else none

/-- Elements of a non-empty array, accumulating into `acc`. -/
def parseItems : Nat → List Char → JList → Option (JList × List Char)
  | 0, _, _ => none
  | n + 1, cs, acc =>
    match parseVal n cs with
    | some (v, rest) =>
      match skipWs rest with
      | ',' :: t => parseItems n t (acc.snoc v)
      | ']' :: t => some (acc.snoc v, t)
      | _ => none
    | none => none

/-- Members of a non-empty object, accumulating with JavaScript assignment
semantics (`insertKV`). -/
def parseMembers : Nat → List Char → JObj → Option (JObj × List Char)
  | 0, _, _ => none
  | n + 1, cs, acc =>
    match skipWs cs with
    | '"' :: t =>
      match parseStrBody t with
      | some (k, r1) =>
        match skipWs r1 with
        | ':' :: r2 =>
          match parseVal n r2 with
          | some (v, r3) =>
            match skipWs r3 with
            | ',' :: t2 => parseMembers n t2 (insertKV acc k v)
            | '}' :: t2 => some (insertKV acc k v, t2)
            | _ => none
          | none => none
        | _ => none
      | none => none
    | _ => none
end

/-- Model of `JSON.parse` on a whole text: one value, then only trailing whitespace. -/
def parseJson (cs : List Char) : Option Json :=
  match parseVal (cs.length + 1) cs with
  | some (v, rest) => if rest.all isJsonWs then some v else none
  | none => none

deriving instance DecidableEq for Json

/-! ## Source-map sanitization (`successHandler`, src/index.js lines 97-109) -/

/-- Match the working-directory pattern at the head of the input: `minimatch.makeRe`
compiles a metacharacter-free path to a literal regex and src/index.js line 100
replaces every escaped `/` by `[\\\/]`, so `/` in the pattern matches either
path separator; every other character matches literally.  Returns the rest of
the input after the match. -/
def matchSeps : List Char → List Char → Option (List Char)
  | [], s => some s
  | _ :: _, [] => none
  | p :: ps, c :: t =>
    if (p = '/' ∧ (c = '/' ∨ c = '\\')) ∨ (p ≠ '/' ∧ p = c) then matchSeps ps t else none

/-- One global left-to-right pass of `text.replace(new RegExp(cwdPattern + '|\.\.\/', 'g'), '')`:
at each position first try the working-directory pattern, then the literal `../`;
on a match skip it, otherwise keep the character.  The fuel equals the input
length, which the by-at-least-one-character progress of every step makes
sufficient. -/
def stripAllAux (pat : List Char) : Nat → List Char → List Char
  | 0, s => s
  | _ + 1, [] => []
  | n + 1, c :: t =>
    match (match pat with | [] => none | _ :: _ => matchSeps pat (c :: t)) with
    | some rest => stripAllAux pat n rest
    | none =>
      match c, t with
      | '.', '.' :: '/' :: r => stripAllAux pat n r
      | _, _ => c :: stripAllAux pat n t

def stripAll (pat s : List Char) : List Char := stripAllAux pat s.length s

/-- Model of `gulp-slash` on a string: every backslash becomes a slash. -/
def slashAll (s : List Char) : List Char := s.map (fun c => if c = '\\' then '/' else c)

/-- Model of `delete obj.k` (a no-op on non-objects, as in JavaScript). -/
def deleteKeyJ (j : Json) (k : List Char) : Json :=
  match j with
  | .obj kvs => .obj (removeKey kvs k)
  | _ => j

/-- The whole source-map treatment of `successHandler`: strip the pattern from the
raw text, normalize separators, `JSON.parse`, delete `file` and `sourcesContent`,
re-serialize with two-space indent.  `none` models the exception `JSON.parse`
throws when the stripped text is not valid JSON. -/
def sanitizeMapText (cwd raw : String) : Option String :=
  match parseJson (slashAll (stripAll cwd.data raw.data)) with
  | some v => some ⟨printAt 0 (deleteKeyJ (deleteKeyJ v "file".data) "sourcesContent".data)⟩
  | none => none

/-- Parse a written map and serialize it again the same way — the round-trip the
spec requires to be the identity on emitted maps. -/
def reSerialize (m : String) : Option String :=
  (parseJson m.data).map (fun w => (⟨printAt 0 w⟩ : String))

/-! ## Observers on written maps (used to state the claims) -/

/-- Whether the JSON text `m` has key `k` at top level. -/
def hasKeyStr (m k : String) : Bool :=
  match parseJson m.data with
  | some (.obj kvs) => keyMemB kvs k.data
  | _ => false

/-- The string entries of a `JList`. -/
def strEntries : JList → List String
  | .nil => []
  | .cons (.str s) xs => (⟨s⟩ : String) :: strEntries xs
  | .cons _ xs => strEntries xs

/-- The `sources` array of a parsed map. -/
def sourcesOf (j : Json) : List String :=
  match j with
  | .obj kvs =>
    match lookupKey kvs "sources".data with
    | some (.arr xs) => strEntries xs
    | _ => []
  | _ => []

/-- Substring test. -/
def infixB (pat : List Char) : List Char → Bool
  | [] => pat.isPrefixOf []
  | c :: t => pat.isPrefixOf (c :: t) || infixB pat t

/-- Whether some `sources` entry of the JSON text `m` contains `bad` as a substring. -/
def hasBadSource (m bad : String) : Bool :=
  match parseJson m.data with
  | some j => (sourcesOf j).any (fun s => infixB bad.data s.data)
  | none => false

/-! ## The `transpile` stage (src/index.js lines 60-146) -/

/-- Outcome of the two-call `sass.render` sequence for one input file, with
`node-sass` as a black-box oracle: the first (no-source-map) call fails, or it
succeeds and the second (source-map) call fails, or both succeed delivering the
css text and the raw map text. -/
inductive SassOutcome where
  | fatalFirst (err : String)
  | failSecond (err : String)
  | success (css map : String)
deriving DecidableEq, Repr

/-- The argument `pushResult` receives: a string content, or the ad hoc object
`{sassSource: file, sassError: error}` of `errorHandler`. -/
inductive PushContents where
  | text (s : String)
  | marker (src : SrcFile) (err : String)
deriving DecidableEq, Repr

/-- Model of `pushResult` (src/index.js lines 76-90): derived record with the input's `cwd`
and `base`, path `sourcePath + sourceName + ext`; a string content becomes the
buffer, an object content leaves the buffer `null` and its fields are assigned
onto the record. -/
def pushResult (f : SrcFile) (ext : String) (c : PushContents) : OutRecord :=
  { cwd := f.cwd
    base := f.base
    path := sourcePathS f.path ++ sourceNameS f.path ++ ext
    contents := match c with | .text s => some s | .marker _ _ => none
    sassError := match c with | .text _ => none | .marker _ e => some e
    sassSource := match c with | .text _ => none | .marker src _ => some src }

/-- The records `transpile` pushes for one input file, by outcome: `errorHandler`
pushes one `.css` marker record; `successHandler` pushes the `.css` record then
the sanitized `.css.map` record.  `none` models the uncaught exception when the
stripped map text fails to parse. -/
def transpileOne (f : SrcFile) (oc : SassOutcome) : Option (List OutRecord) :=
  match oc with
  | .fatalFirst err => some [pushResult f ".css" (.marker f err)]
  | .failSecond err => some [pushResult f ".css" (.marker f err)]
  | .success css raw =>
    match sanitizeMapText f.cwd raw with
    | some m => some [pushResult f ".css" (.text css), pushResult f ".css.map" (.text m)]
    | none => none

/-- The stage over a file sequence: one file at a time, each file's outputs
emitted before the next file is processed. -/
def transpileStream (oracle : SrcFile → SassOutcome) : List SrcFile → Option (List OutRecord)
  | [] => some []
  | f :: fs =>
    match transpileOne f (oracle f) with
    | some out =>
      match transpileStream oracle fs with
      | some rest => some (out ++ rest)
      | none => none
    | none => none

/-! ## Call-order trace of one `transpile` item (src/index.js lines 129-144) -/

/-- Events of one item's lifetime: a `sass.render` invocation (with its
`sourceMap` argument — `none` models `false` — and the include paths passed),
a handler run (`true` for the success handler), and the `done()` completion
signal. -/
inductive TEvent where
  | call (sourceMap : Option String) (paths : List String)
  | handlerRun (ok : Bool)
  | signalDone
deriving DecidableEq, Repr

/-- Model of `render(map, error, success)`: invoke the compiler, then run the success or
the error continuation according to the oracle. -/
def renderT (oracle : Option String → Bool) (paths : List String) (m : Option String)
    (errK succK : List TEvent → List TEvent) (acc : List TEvent) : List TEvent :=
  let acc2 := acc ++ [TEvent.call m paths]
  if oracle m then succK (acc2 ++ [TEvent.handlerRun true]) else errK (acc2 ++ [TEvent.handlerRun false])

/-- The trace of one input item:
`render(false, errorHandler, function() { render(mapName, errorHandler, successHandler); })`,
where both `errorHandler` and `successHandler` push their records and call
`done()`. -/
def transpileTrace (oracle : Option String → Bool) (paths : List String) (mapName : String) : List TEvent :=
  renderT oracle paths none
    (fun a => a ++ [TEvent.signalDone])
    (fun a =>
      renderT oracle paths (some mapName)
        (fun b => b ++ [TEvent.signalDone])
        (fun b => b ++ [TEvent.signalDone])
        a)
    []

def isCallEv : TEvent → Bool
  | .call _ _ => true
  | _ => false

/-- How many compiler invocations a trace contains. -/
def countCalls (t : List TEvent) : Nat := (t.filter isCallEv).length

/-! ## The `sassReporter` stage (src/index.js lines 154-198) -/

/-- JavaScript `\s` on the ASCII range. -/
def isJsWs (c : Char) : Bool :=
  c = ' ' || c = '\t' || c = '\n' || c = '\r' || c = '\x0b' || c = '\x0c'

/-- The tail of the error pattern after the first capture group:
`\:(\d+)\:\s*error:\s*(.*)` — a colon, one or more digits, a colon, optional
whitespace, the literal `error:`, optional whitespace, then the rest of the
line.  Returns the digit and message captures. -/
def matchTailRe : List Char → Option (List Char × List Char)
  | ':' :: t =>
    let ds := t.takeWhile Char.isDigit
    if ds = [] then none
    else
      match t.drop ds.length with
      | ':' :: t2 =>
        let t3 := t2.dropWhile isJsWs
        if ['e', 'r', 'r', 'o', 'r', ':'].isPrefixOf t3 then
          let t4 := (t3.drop 6).dropWhile isJsWs
          some (ds, t4.takeWhile (fun c => c != '\n'))
        else none
      | _ => none
  | _ => none

/-- Greedy search for the split of the leading `(.*)` group: try the longest
newline-free prefix first, exactly as the backtracking regex engine does. -/
def tryAtGo : Nat → List Char → Option (List Char × List Char × List Char)
  | a, cs =>
    match matchTailRe (cs.drop a) with
    | some (ds, msg) => some (cs.take a, ds, msg)
    | none =>
      match a with
      | 0 => none
      | a' + 1 => tryAtGo a' cs

/-- Attempt the whole pattern with the match starting at the head of `cs`. -/
def tryAtRe (cs : List Char) : Option (List Char × List Char × List Char) :=
  tryAtGo ((cs.takeWhile (fun c => c != '\n')).length) cs

/-- Model of `/(.*)\:(\d+)\:\s*error:\s*(.*)/.exec(text)`: scan match positions left to
right; at each, match greedily. -/
def execRe : List Char → Option (List Char × List Char × List Char)
  | [] => none
  | c :: t =>
    match tryAtRe (c :: t) with
    | some r => some r
    | none => execRe t

/-- Truthiness of an optional string field: present and non-empty. -/
def truthyS : Option String → Bool
  | some s => s != ""
  | none => false

/-- Line 161: `(file.isNull()) && (file.sassError) && (file.sassSource)`. -/
def isErrorMarker (r : OutRecord) : Bool :=
  r.contents.isNone && truthyS r.sassError && r.sassSource.isSome

/-- The fallback branch of the reporter references the undefined identifier
`error` (src/index.js line 173), which raises a `ReferenceError` at run time. -/
inductive ReporterCrash where
  | referenceError
deriving DecidableEq, Repr

/-- Lines 168-171: the displayed path and the formatted message, including the
trailing newline appended at line 171. -/
def formatSassError (procCwd : String) (src : SrcFile) (tok line msg : List Char) : String :=
  let absolute : String :=
    if tok = "source string".data then src.path
    else pathResolve procCwd ⟨tok ++ ".scss".data⟩
  absolute ++ ":" ++ (⟨line⟩ : String) ++ ":0: " ++ (⟨msg⟩ : String) ++ "\n"

/-- One reporter transform step (src/index.js lines 158-186): classify, buffer a
unique formatted message for a parsed error marker, crash on an unparsed one,
forward every non-marker record unchanged. -/
def reporterStep (procCwd : String) (st : List String) (r : OutRecord) :
    Except ReporterCrash (List String × Option OutRecord) :=
  match r.contents, r.sassError, r.sassSource with
  | none, some e, some src =>
    if e = "" then .ok (st, some r)
    else
      match execRe e.data with
      | some (tok, line, msg) => .ok (insertU st (formatSassError procCwd src tok line msg), none)
      | none => .error .referenceError
  | _, _, _ => .ok (st, some r)

/-- A character repeated `n` times: `new Array(n + 1).join(ch)`. -/
def repChar (c : Char) (n : Nat) : String := ⟨List.replicate n c⟩

/-- The reporter flush function (src/index.js lines 188-197): `none` when nothing
is written to standard output, otherwise the exact text written. -/
def reporterFlush (bannerWidth : Option Nat) (output : List String) : Option String :=
  if output = [] then none
  else
    let width := bannerWidth.getD 0
    let start := if 0 < width then repChar '▼' width ++ "\n" else ""
    let stop := if 0 < width then repChar '▲' width ++ "\n" else ""
    some (start ++ "\n" ++ String.intercalate "\n" output ++ "\n" ++ stop)

/-! ## Properties of `insertU` folds -/

theorem mem_foldl_insertU {α : Type} [DecidableEq α] (l : List α) :
    ∀ (acc : List α) (x : α), x ∈ l.foldl insertU acc ↔ x ∈ acc ∨ x ∈ l := by
  induction l with
  | nil => simp
  | cons a t ih =>
    intro acc x
    simp only [List.foldl_cons, ih, insertU, List.mem_cons]
    split
    · rename_i hmem
      constructor
      · rintro (h | h)
        · exact Or.inl h
        · exact Or.inr (Or.inr h)
      · rintro (h | h | h)
        · exact Or.inl h
        · exact Or.inl (h ▸ hmem)
        · exact Or.inr h
    · simp only [List.mem_append, List.mem_singleton]
      tauto

theorem nodup_foldl_insertU {α : Type} [DecidableEq α] (l : List α) :
    ∀ acc : List α, acc.Nodup → (l.foldl insertU acc).Nodup := by
  induction l with
  | nil => intro acc h; exact h
  | cons a t ih =>
    intro acc h
    apply ih
    unfold insertU
    split
    · exact h
    · rename_i hnot
      exact List.Nodup.append h (List.nodup_singleton a) (by simpa using hnot)

theorem dedupF_append_singleton {α : Type} [DecidableEq α] (l : List α) (x : α) :
    dedupF (l ++ [x]) = insertU (dedupF l) x := by
  simp [dedupF, List.foldl_append]

theorem mem_dedupF {α : Type} [DecidableEq α] (l : List α) (x : α) :
    x ∈ dedupF l ↔ x ∈ l := by
  simpa using mem_foldl_insertU l [] x

theorem pairwise_indexOf_dedupF {α : Type} [DecidableEq α] (l : List α) :
    List.Pairwise (fun a b => a < b) ((dedupF l).map (fun y => List.indexOf y l)) := by
  induction l using List.reverseRecOn with
  | nil => simp [dedupF]
  | append_singleton t x ih =>
    rw [dedupF_append_singleton]
    unfold insertU
    have hmapeq : (dedupF t).map (fun y => List.indexOf y (t ++ [x])) =
        (dedupF t).map (fun y => List.indexOf y t) := by
      apply List.map_congr_left
      intro y hy
      exact List.indexOf_append_of_mem ((mem_dedupF t y).mp hy)
    split
    · rw [hmapeq]; exact ih
    · rename_i hnot
      have hxt : x ∉ t := fun hx => hnot ((mem_dedupF t x).mpr hx)
      rw [List.map_append, hmapeq]
      rw [List.pairwise_append]
      refine ⟨ih, List.pairwise_singleton _ _, ?_⟩
      intro a ha b hb
      simp only [List.mem_map] at ha
      obtain ⟨y, hy, rfl⟩ := ha
      simp only [List.map_singleton, List.mem_singleton] at hb
      subst hb
      have h1 : List.indexOf y t < t.length :=
        List.indexOf_lt_length.mpr ((mem_dedupF t y).mp hy)
      have h2 : List.indexOf x (t ++ [x]) = t.length := by
        rw [List.indexOf_append_of_not_mem hxt, List.indexOf_cons_self]
        omega
      omega

/-! ## `addUnique` is a fold of `insertU` over the flattened strings -/

mutual
theorem addUnique_eq : ∀ (v : JsArg) (l : List String),
    addUnique v l = (flatStrings v).foldl insertU l
  | .str s, l => by simp [addUnique, flatStrings, insertU]
  | .arr xs, l => by simpa [addUnique, flatStrings] using addUniqueList_eq xs l
  | .other, l => by simp [addUnique, flatStrings]

theorem addUniqueList_eq : ∀ (vs : JsArgs) (l : List String),
    addUniqueList vs l = (flatStringsList vs).foldl insertU l
  | .nil, l => by simp [addUniqueList, flatStringsList]
  | .cons x xs, l => by
    rw [addUniqueList, flatStringsList, List.foldl_append, addUnique_eq x l,
      addUniqueList_eq xs]
end

/-- Claim C2: after a `libraries` stage over any explicit arguments and any input
sequence, the shared list holds each distinct path exactly once in first-seen
order — explicit construction-time paths before stream-observed base directories,
duplicates by exact string equality dropped — and every input record is forwarded
to the output unchanged. -/
theorem libraries_unique_first_seen (args : JsArgs) (files : List SrcFile) :
    librariesRun args files =
      (dedupF (flatStringsList args ++ files.map SrcFile.base), files) ∧
    (librariesRun args files).1.Nodup ∧
    (∀ p, p ∈ (librariesRun args files).1 ↔
      p ∈ flatStringsList args ++ files.map SrcFile.base) ∧
    List.Pairwise (fun a b => a < b)
      (((librariesRun args files).1).map
        (fun y => List.indexOf y (flatStringsList args ++ files.map SrcFile.base))) ∧
    (librariesRun args files).2 = files := by
  have key : (librariesRun args files).1 =
      dedupF (flatStringsList args ++ files.map SrcFile.base) := by
    show files.foldl (fun acc f => insertU acc f.base) (addUnique (.arr args) []) = _
    rw [addUnique_eq, flatStrings, dedupF, List.foldl_append]
    rw [← List.foldl_map (fun f : SrcFile => f.base) insertU files]
  refine ⟨?_, ?_, ?_, ?_, rfl⟩
  · exact Prod.ext key rfl
  · rw [key]; exact nodup_foldl_insertU _ [] (List.nodup_nil)
  · intro p; rw [key]; exact mem_dedupF _ p
  · rw [key]; exact pairwise_indexOf_dedupF _

/-- Claim C10: an explicit `libraries()` argument that is neither a string nor an
array is silently ignored (the total function `addUnique` leaves the list
untouched and raises nothing), while array arguments are flattened recursively to
arbitrary depth and exactly their string elements are appended uniquely, in
order. -/
theorem addUnique_ignores_non_strings :
    (∀ (v : JsArg) (l : List String), addUnique v l = (flatStrings v).foldl insertU l) ∧
    (∀ l : List String, addUnique .other l = l) ∧
    flatStrings .other = [] ∧
    (∀ xs : JsArgs, flatStrings (.arr xs) = flatStringsList xs) ∧
    (∀ s : String, flatStrings (.str s) = [s]) ∧
    (∀ (s : String) (l : List String), addUnique (.str s) l = insertU l s) := by
  refine ⟨addUnique_eq, fun l => rfl, rfl, fun xs => rfl, fun s => rfl, fun s l => rfl⟩

/-! ## Claims about the `transpile` call sequence -/

/-- Claim C4 counterexample: with an oracle failing the first (probe) call, the
compiler is invoked only once for that input item, refuting "invokes the external
compiler exactly twice" as a property of every input file; `done()` is also
signalled without any second call having run. -/
theorem transpile_single_call_on_first_failure :
    countCalls (transpileTrace (fun _ => false) ["/lib"] "style.css.map") = 1 ∧
    transpileTrace (fun _ => false) ["/lib"] "style.css.map" =
      [TEvent.call none ["/lib"], TEvent.handlerRun false, TEvent.signalDone] ∧
    (1 : Nat) ≠ 2 := by
  exact ⟨rfl, rfl, by decide⟩

/-- Claim C4 (amended): for each input item the compiler is invoked once or
twice — first with no source map requested; a second call, with the source map
requested and the same include paths, is issued if and only if the first call
resolved successfully, and only after its success handler ran; completion is
signalled exactly once, as the final event, after the handler of the last issued
call. -/
theorem transpile_two_phase_calls (oracle : Option String → Bool)
    (paths : List String) (mapName : String) :
    transpileTrace oracle paths mapName =
      (if oracle none then
        [TEvent.call none paths, TEvent.handlerRun true, TEvent.call (some mapName) paths,
          TEvent.handlerRun (oracle (some mapName)), TEvent.signalDone]
      else [TEvent.call none paths, TEvent.handlerRun false, TEvent.signalDone]) ∧
    countCalls (transpileTrace oracle paths mapName) = (if oracle none then 2 else 1) ∧
    (transpileTrace oracle paths mapName).getLast? = some TEvent.signalDone := by
  cases h1 : oracle none <;> cases h2 : oracle (some mapName) <;>
    simp [transpileTrace, renderT, countCalls, isCallEv, h1, h2]

/-- Claim C3: a compiler failure on either call makes `transpile` emit exactly one
record for that file — named `<name>.css`, with null contents, carrying the
original source record and the raw error text — and the stream continues with the
remaining files. -/
theorem transpile_failure_single_marker (oracle : SrcFile → SassOutcome)
    (f : SrcFile) (fs : List SrcFile) (err : String)
    (h : oracle f = .fatalFirst err ∨ oracle f = .failSecond err) :
    transpileOne f (oracle f) = some [pushResult f ".css" (.marker f err)] ∧
    (pushResult f ".css" (.marker f err)).contents = none ∧
    (pushResult f ".css" (.marker f err)).sassError = some err ∧
    (pushResult f ".css" (.marker f err)).sassSource = some f ∧
    (pushResult f ".css" (.marker f err)).path =
      sourcePathS f.path ++ sourceNameS f.path ++ ".css" ∧
    transpileStream oracle (f :: fs) =
      (match transpileStream oracle fs with
        | some rest => some (pushResult f ".css" (.marker f err) :: rest)
        | none => none) := by
  have hone : transpileOne f (oracle f) = some [pushResult f ".css" (.marker f err)] := by
    rcases h with h | h <;> rw [h] <;> rfl
  refine ⟨hone, rfl, rfl, rfl, rfl, ?_⟩
  show (match transpileOne f (oracle f) with
    | some out =>
      match transpileStream oracle fs with
      | some rest => some (out ++ rest)
      | none => none
    | none => none) = _
  rw [hone]
  cases transpileStream oracle fs <;> simp

/-- Witness for `transpile_failure_single_marker` at a concrete file and oracle. -/
theorem transpile_failure_single_marker_witness :
    ((fun _ : SrcFile => SassOutcome.fatalFirst "boom")
        ⟨"/work", "/work/", "/work/style.scss"⟩ = .fatalFirst "boom" ∨
      (fun _ : SrcFile => SassOutcome.fatalFirst "boom")
        ⟨"/work", "/work/", "/work/style.scss"⟩ = .failSecond "boom") ∧
    transpileStream (fun _ => SassOutcome.fatalFirst "boom")
        [⟨"/work", "/work/", "/work/style.scss"⟩] =
      some [pushResult ⟨"/work", "/work/", "/work/style.scss"⟩ ".css"
        (.marker ⟨"/work", "/work/", "/work/style.scss"⟩ "boom")] := by
  refine ⟨Or.inl rfl, ?_⟩
  have h := transpile_failure_single_marker (fun _ => SassOutcome.fatalFirst "boom")
    ⟨"/work", "/work/", "/work/style.scss"⟩ [] "boom" (Or.inl rfl)
  exact h.2.2.2.2.2

/-! ## Support lemmas for the reader/printer round trip -/

theorem skipWs_not_ws {c : Char} (s : List Char) (h : isJsonWs c = false) :
    skipWs (c :: s) = c :: s := by
  simp [skipWs, List.dropWhile_cons, h]

theorem skipWs_all_append {w : List Char} (s : List Char) (hw : w.all isJsonWs = true) :
    skipWs (w ++ s) = skipWs s := by
  induction w with
  | nil => rfl
  | cons c t ih =>
    simp only [List.all_cons, Bool.and_eq_true] at hw
    simp only [List.cons_append, skipWs, List.dropWhile_cons, hw.1, if_true]
    exact ih hw.2

theorem indentJ_all_ws (lvl : Nat) : (indentJ lvl).all isJsonWs = true := by
  simp only [indentJ, List.all_eq_true]
  intro c hc
  rw [List.eq_of_mem_replicate hc]
  decide

theorem isDigit_toNat {c : Char} (h : c.isDigit = true) : 48 ≤ c.toNat ∧ c.toNat ≤ 57 := by
  simp [Char.isDigit, Char.le_def] at h
  exact ⟨h.1, h.2⟩

theorem isDigit_ne {c : Char} (h : c.isDigit = true) (d : Char)
    (hd : d.toNat < 48 ∨ 57 < d.toNat) : c ≠ d := by
  have hb := isDigit_toNat h
  intro e
  subst e
  omega

theorem digit_head_facts {c : Char} (h : c.isDigit = true) :
    isJsonWs c = false ∧ c ≠ '"' ∧ c ≠ '[' ∧ c ≠ '{' ∧ c ≠ 'n' ∧ c ≠ 't' ∧ c ≠ 'f' ∧
      c ≠ ']' := by
  refine ⟨?_, isDigit_ne h '"' (by decide), isDigit_ne h '[' (by decide),
    isDigit_ne h '{' (by decide), isDigit_ne h 'n' (by decide), isDigit_ne h 't' (by decide),
    isDigit_ne h 'f' (by decide), isDigit_ne h ']' (by decide)⟩
  have h2 := isDigit_ne h ' ' (by decide)
  have h3 := isDigit_ne h '\t' (by decide)
  have h4 := isDigit_ne h '\n' (by decide)
  have h5 := isDigit_ne h '\r' (by decide)
  simp [isJsonWs, h2, h3, h4, h5]

theorem digitCh_isDigit (d : Nat) : (digitCh d).isDigit = true := by
  by_cases h : d < 10
  · interval_cases d <;> decide
  · obtain ⟨n, rfl⟩ : ∃ n, d = n + 10 := ⟨d - 10, by omega⟩
    exact (by decide : ('0').isDigit = true)

theorem digitCh_val (d : Nat) (h : d < 10) : (digitCh d).toNat - 48 = d := by
  interval_cases d <;> decide

theorem natCharsAux_eq : ∀ (fuel n : Nat) (acc : List Char), 0 < n → n < fuel →
    natCharsAux fuel n acc = ((Nat.digits 10 n).map digitCh).reverse ++ acc := by
  intro fuel
  induction fuel using Nat.strong_induction_on with
  | _ fuel ih =>
    intro n acc hpos hlt
    cases fuel with
    | zero => omega
    | succ f =>
      rw [Nat.digits_def' (by norm_num : (1 : Nat) < 10) hpos]
      simp only [natCharsAux, List.map_cons, List.reverse_cons]
      by_cases hn : n < 10
      · have h0 : n / 10 = 0 := Nat.div_eq_of_lt hn
        have hm : n % 10 = n := Nat.mod_eq_of_lt hn
        rw [if_pos hn, h0, hm]
        simp
      · rw [if_neg hn]
        have hdp : 0 < n / 10 := Nat.div_pos (by omega) (by norm_num)
        have hdl : n / 10 < f := by
          have := Nat.div_lt_self (by omega : 0 < n) (by norm_num : 1 < 10)
          omega
        rw [ih f (Nat.lt_succ_self f) (n / 10) (digitCh (n % 10) :: acc) hdp hdl]
        simp

theorem natChars_eq (n : Nat) :
    natChars n = if n = 0 then ['0'] else ((Nat.digits 10 n).map digitCh).reverse := by
  unfold natChars
  split
  · rename_i h
    subst h
    rfl
  · rename_i h
    rw [natCharsAux_eq (n + 1) n [] (by omega) (by omega)]
    simp

theorem natChars_ne_nil (n : Nat) : natChars n ≠ [] := by
  rw [natChars_eq]
  split
  · simp
  · rename_i h
    simp only [ne_eq, List.reverse_eq_nil_iff, List.map_eq_nil_iff]
    exact Nat.digits_ne_nil_iff_ne_zero.mpr h

theorem natChars_all_digit (n : Nat) : ∀ c ∈ natChars n, c.isDigit = true := by
  rw [natChars_eq]
  split
  · intro c hc
    simp only [List.mem_singleton] at hc
    subst hc
    decide
  · intro c hc
    simp only [List.mem_reverse, List.mem_map] at hc
    obtain ⟨d, _, rfl⟩ := hc
    exact digitCh_isDigit d

theorem foldr_digitCh (l : List Nat) (hl : ∀ d ∈ l, d < 10) :
    l.foldr (fun c a => 10 * a + ((digitCh c).toNat - 48)) 0 = Nat.ofDigits 10 l := by
  induction l with
  | nil => simp [Nat.ofDigits]
  | cons d t ih =>
    have hd := digitCh_val d (hl d (List.mem_cons_self d t))
    have ht := ih (fun x hx => hl x (List.mem_cons_of_mem d hx))
    simp only [List.foldr_cons, Nat.ofDigits_cons, ht, hd]
    omega

theorem toNatDigits_natChars (n : Nat) : toNatDigits (natChars n) = n := by
  rw [natChars_eq]
  unfold toNatDigits
  split
  · rename_i h
    subst h
    decide
  · rename_i h
    rw [List.foldl_reverse, List.foldr_map]
    exact (foldr_digitCh _ (fun d hd => Nat.digits_lt_base (by omega) hd)).trans
      (Nat.ofDigits_digits 10 n)

theorem takeWhile_dropWhile_split (p : Char → Bool) (l r : List Char)
    (hl : ∀ c ∈ l, p c = true) (hr : headNot p r) :
    (l ++ r).takeWhile p = l ∧ (l ++ r).dropWhile p = r := by
  induction l with
  | nil =>
    cases r with
    | nil => exact ⟨rfl, rfl⟩
    | cons c t =>
      simp only [headNot] at hr
      simp [List.takeWhile_cons, List.dropWhile_cons, hr]
  | cons c t ih =>
    have hc := hl c (List.mem_cons_self c t)
    have ih2 := ih (fun x hx => hl x (List.mem_cons_of_mem c hx))
    simp [List.takeWhile_cons, List.dropWhile_cons, hc, ih2.1, ih2.2]

theorem hexVal_hexDigitCh : ∀ n : Nat, n < 16 → hexVal (hexDigitCh n) = n := by
  decide

theorem parseStrBody_escape (s : List Char) : ∀ rest : List Char,
    parseStrBody (escapeList s ++ '"' :: rest) = some (s, rest) := by
  induction s with
  | nil =>
    intro rest
    show parseStrBody ([] ++ '"' :: rest) = _
    rw [List.nil_append, parseStrBody.eq_def]
    simp
  | cons c t ih =>
    intro rest
    show parseStrBody ((escapeChar c ++ escapeList t) ++ '"' :: rest) = _
    rw [List.append_assoc]
    unfold escapeChar
    split_ifs with h1 h2 h3 h4 h5 h6 h7 h8
    · subst h1; rw [List.cons_append, List.cons_append, List.nil_append,
        parseStrBody.eq_def]; simp [unescCh, ih rest]
    · subst h2; rw [List.cons_append, List.cons_append, List.nil_append,
        parseStrBody.eq_def]; simp [unescCh, ih rest]
    · subst h3; rw [List.cons_append, List.cons_append, List.nil_append,
        parseStrBody.eq_def]; simp [unescCh, ih rest]
    · subst h4; rw [List.cons_append, List.cons_append, List.nil_append,
        parseStrBody.eq_def]; simp [unescCh, ih rest]
    · subst h5; rw [List.cons_append, List.cons_append, List.nil_append,
        parseStrBody.eq_def]; simp [unescCh, ih rest]
    · subst h6; rw [List.cons_append, List.cons_append, List.nil_append,
        parseStrBody.eq_def]; simp [unescCh, ih rest]
    · subst h7; rw [List.cons_append, List.cons_append, List.nil_append,
        parseStrBody.eq_def]; simp [unescCh, ih rest]
    · -- the `\u00XX` branch for remaining control characters
      simp only [List.cons_append, List.nil_append]
      rw [parseStrBody.eq_def]
      simp only [reduceIte, reduceCtorEq, ih rest, Option.map_some]
      have hdiv : c.toNat / 16 < 16 := by omega
      have hmod : c.toNat % 16 < 16 := by omega
      have hv0 : hexVal '0' = 0 := by decide
      simp only [hv0, hexVal_hexDigitCh _ hdiv, hexVal_hexDigitCh _ hmod]
      have hval : 0 * 4096 + 0 * 256 + c.toNat / 16 * 16 + c.toNat % 16 = c.toNat := by omega
      rw [hval, Char.ofNat_toNat]
      simp
    · have hq : c ≠ '"' := h1
      have hb : c ≠ '\\' := h2
      simp only [List.cons_append, List.nil_append]
      rw [parseStrBody.eq_def]
      simp [hq, hb, ih rest]

theorem printAt_head_shape (lvl : Nat) (v : Json) :
    ∃ c t, printAt lvl v = c :: t ∧ isJsonWs c = false ∧ c ≠ ']' := by
  cases v with
  | null => exact ⟨'n', ['u', 'l', 'l'], by simp [printAt], by decide, by decide⟩
  | bool b =>
    cases b with
    | true => exact ⟨'t', ['r', 'u', 'e'], by simp [printAt], by decide, by decide⟩
    | false => exact ⟨'f', ['a', 'l', 's', 'e'], by simp [printAt], by decide, by decide⟩
  | num n =>
    obtain ⟨c, t, hct⟩ := List.exists_cons_of_ne_nil (natChars_ne_nil n)
    have hc : c.isDigit = true := natChars_all_digit n c (hct ▸ List.mem_cons_self c t)
    have hf := digit_head_facts hc
    exact ⟨c, t, by simpa [printAt] using hct, hf.1, hf.2.2.2.2.2.2.2⟩
  | str s =>
    exact ⟨'"', escapeList s ++ ['"'], by simp [printAt, quoteStr], by decide, by decide⟩
  | arr xs =>
    cases xs with
    | nil => exact ⟨'[', [']'], by simp [printAt], by decide, by decide⟩
    | cons x ys =>
      exact ⟨'[', '\n' :: (printElems (lvl + 1) (.cons x ys) ++ '\n' :: (indentJ lvl ++ [']'])),
        by simp [printAt], by decide, by decide⟩
  | obj kvs =>
    cases kvs with
    | nil => exact ⟨'{', ['}'], by simp [printAt], by decide, by decide⟩
    | cons k v tl =>
      exact ⟨'{', '\n' :: (printMembers (lvl + 1) (.cons k v tl) ++ '\n' :: (indentJ lvl ++ ['}'])),
        by simp [printAt], by decide, by decide⟩

theorem skipWs_print (lvl : Nat) (v : Json) (wsp rest : List Char)
    (hw : wsp.all isJsonWs = true) :
    skipWs (wsp ++ printAt lvl v ++ rest) = printAt lvl v ++ rest := by
  rw [List.append_assoc, skipWs_all_append _ hw]
  obtain ⟨c, t, he, hnws, _⟩ := printAt_head_shape lvl v
  rw [he, List.cons_append]
  exact skipWs_not_ws _ hnws

theorem JList_app_snoc : ∀ (acc : JList) (x : Json) (tl : JList),
    (acc.snoc x).app tl = acc.app (.cons x tl)
  | .nil, _, _ => rfl
  | .cons y ys, x, tl => by
    simp only [JList.snoc, JList.app, JList_app_snoc ys]

theorem JList_snoc_eq : ∀ (acc : JList) (x : Json), acc.snoc x = acc.app (.cons x .nil)
  | .nil, _ => rfl
  | .cons y ys, x => by simp only [JList.snoc, JList.app, JList_snoc_eq ys]

theorem keyMemB_false_iff (kvs : JObj) (k : List Char) :
    keyMemB kvs k = false ↔ k ∉ keysOf kvs := by
  simp [keyMemB]

theorem insertKV_fresh : ∀ (acc : JObj) (k : List Char) (v : Json),
    keyMemB acc k = false → insertKV acc k v = acc.appO (.cons k v .nil)
  | .nil, _, _, _ => rfl
  | .cons k0 v0 tl, k, v, h => by
    have hmem := (keyMemB_false_iff _ _).mp h
    simp only [keysOf, List.mem_cons, not_or] at hmem
    simp only [insertKV, if_neg (fun e : k0 = k => hmem.1 e.symm), JObj.appO,
      insertKV_fresh tl k v ((keyMemB_false_iff _ _).mpr hmem.2)]

theorem JObj_appO_assoc : ∀ (a b c : JObj), (a.appO b).appO c = a.appO (b.appO c)
  | .nil, _, _ => rfl
  | .cons k v tl, b, c => by simp only [JObj.appO, JObj_appO_assoc tl]

theorem keysOf_appO : ∀ (a b : JObj), keysOf (a.appO b) = keysOf a ++ keysOf b
  | .nil, _ => rfl
  | .cons k v tl, b => by simp only [JObj.appO, keysOf, keysOf_appO tl, List.cons_append]

theorem printElems_shape (lvl : Nat) (x : Json) (ys : JList) :
    ∃ tail, printElems lvl (.cons x ys) = indentJ lvl ++ printAt lvl x ++ tail := by
  cases ys with
  | nil => exact ⟨[], by simp [printElems]⟩
  | cons y ys' =>
    exact ⟨',' :: '\n' :: printElems lvl (.cons y ys'), by simp [printElems]⟩

theorem printMembers_shape (lvl : Nat) (k : List Char) (v : Json) (tl : JObj) :
    ∃ tail, printMembers lvl (.cons k v tl) =
      indentJ lvl ++ (quoteStr k ++ ':' :: ' ' :: printAt lvl v) ++ tail := by
  cases tl with
  | nil => exact ⟨[], by simp [printMembers]⟩
  | cons k1 v1 tl' =>
    exact ⟨',' :: '\n' :: printMembers lvl (.cons k1 v1 tl'),
      by simp [printMembers, List.append_assoc]⟩

theorem skipWs_elems_head (lvl : Nat) (x : Json) (ys : JList) (suf : List Char) :
    ∃ c t, skipWs ('\n' :: (printElems lvl (.cons x ys) ++ suf)) = c :: t ∧
      isJsonWs c = false ∧ c ≠ ']' := by
  obtain ⟨tail, ht⟩ := printElems_shape lvl x ys
  obtain ⟨c, t0, he, hnws, hne⟩ := printAt_head_shape lvl x
  refine ⟨c, t0 ++ (tail ++ suf), ?_, hnws, hne⟩
  rw [ht, he]
  rw [show ('\n' :: ((indentJ lvl ++ (c :: t0) ++ tail) ++ suf) : List Char) =
    ('\n' :: indentJ lvl) ++ (c :: (t0 ++ (tail ++ suf))) from by simp]
  rw [skipWs_all_append _ (by simp [List.all_cons, indentJ_all_ws, isJsonWs])]
  exact skipWs_not_ws _ hnws

theorem skipWs_members_head (lvl : Nat) (k : List Char) (v : Json) (tl : JObj)
    (suf tail : List Char)
    (ht : printMembers lvl (.cons k v tl) =
      indentJ lvl ++ (quoteStr k ++ ':' :: ' ' :: printAt lvl v) ++ tail) :
    skipWs ('\n' :: (printMembers lvl (.cons k v tl) ++ suf)) =
      '"' :: (escapeList k ++ '"' :: (':' :: ' ' :: printAt lvl v ++ (tail ++ suf))) := by
  rw [ht]
  rw [show ('\n' :: ((indentJ lvl ++ (quoteStr k ++ ':' :: ' ' :: printAt lvl v) ++ tail) ++
      suf) : List Char) =
    ('\n' :: indentJ lvl) ++ ('"' :: (escapeList k ++ '"' :: (':' :: ' ' :: printAt lvl v ++
      (tail ++ suf)))) from by simp [quoteStr, List.append_assoc]]
  rw [skipWs_all_append _ (by simp [List.all_cons, indentJ_all_ws, isJsonWs])]
  exact skipWs_not_ws _ (by decide)

theorem skipWs_close (lvl : Nat) (c : Char) (rest : List Char) (hc : isJsonWs c = false) :
    skipWs ('\n' :: (indentJ lvl ++ c :: rest)) = c :: rest := by
  rw [show ('\n' :: (indentJ lvl ++ c :: rest) : List Char) =
    ('\n' :: indentJ lvl) ++ (c :: rest) from by simp]
  rw [skipWs_all_append _ (by simp [List.all_cons, indentJ_all_ws, isJsonWs])]
  exact skipWs_not_ws _ hc

theorem parse_print_main : ∀ n : Nat,
    (∀ (v : Json) (lvl : Nat) (wsp rest : List Char), wfB v = true →
      (printAt lvl v).length + 1 ≤ n → wsp.all isJsonWs = true → headNot Char.isDigit rest →
      parseVal n (wsp ++ printAt lvl v ++ rest) = some (v, rest)) ∧
    (∀ (x0 : Json) (xs0 : JList) (lvl : Nat) (wsp rest : List Char) (acc : JList),
      wfList (.cons x0 xs0) = true →
      (printElems (lvl + 1) (.cons x0 xs0)).length + 1 ≤ n → wsp.all isJsonWs = true →
      parseItems n
        (wsp ++ printElems (lvl + 1) (.cons x0 xs0) ++ ('\n' :: (indentJ lvl ++ ']' :: rest)))
        acc = some (acc.app (.cons x0 xs0), rest)) ∧
    (∀ (k0 : List Char) (v0 : Json) (kvs0 : JObj) (lvl : Nat) (wsp rest : List Char) (acc : JObj),
      wfObjVals (.cons k0 v0 kvs0) = true →
      nodupKeysB (keysOf (.cons k0 v0 kvs0)) = true →
      (∀ k ∈ keysOf (.cons k0 v0 kvs0), keyMemB acc k = false) →
      (printMembers (lvl + 1) (.cons k0 v0 kvs0)).length + 1 ≤ n → wsp.all isJsonWs = true →
      parseMembers n
        (wsp ++ printMembers (lvl + 1) (.cons k0 v0 kvs0) ++
          ('\n' :: (indentJ lvl ++ '}' :: rest)))
        acc = some (acc.appO (.cons k0 v0 kvs0), rest)) := by
  intro n
  induction n using Nat.strong_induction_on with
  | _ n ih =>
    cases n with
    | zero => refine ⟨?_, ?_, ?_⟩ <;> (intros; omega)
    | succ m =>
      obtain ⟨ihV, ihI, ihM⟩ := ih m (Nat.lt_succ_self m)
      refine ⟨?_, ?_, ?_⟩
      · intro v lvl wsp rest hwf hlen hwsp hrest
        have hskip := skipWs_print lvl v wsp rest hwsp
        cases v with
        | null =>
          simp only [parseVal]
          rw [hskip]
          simp only [printAt, List.cons_append, List.nil_append]
          simp
        | bool b =>
          cases b <;>
            (simp only [parseVal]; rw [hskip];
              simp only [printAt, List.cons_append, List.nil_append]; simp)
        | num k =>
          obtain ⟨c, t, hnc⟩ := List.exists_cons_of_ne_nil (natChars_ne_nil k)
          have hcd : c.isDigit = true := natChars_all_digit k c (hnc ▸ List.mem_cons_self c t)
          have hf := digit_head_facts hcd
          have hsplit := takeWhile_dropWhile_split Char.isDigit (natChars k) rest
            (natChars_all_digit k) hrest
          simp only [parseVal]
          rw [hskip]
          simp only [printAt]
          rw [hnc, List.cons_append]
          simp only [hf.2.1, hf.2.2.1, hf.2.2.2.1, hf.2.2.2.2.1, hf.2.2.2.2.2.1,
            hf.2.2.2.2.2.2.1, if_false, hcd, if_true, ← List.cons_append, ← hnc]
          rw [hsplit.1, hsplit.2, toNatDigits_natChars]
        | str s =>
          simp only [parseVal]
          rw [hskip]
          simp only [printAt, quoteStr, List.cons_append, List.append_assoc,
            List.singleton_append]
          simp [parseStrBody_escape]
        | arr xs =>
          cases xs with
          | nil =>
            simp only [parseVal]
            rw [hskip]
            simp only [printAt, List.cons_append, List.singleton_append]
            simp [skipWs_not_ws _ (by decide : isJsonWs ']' = false)]
          | cons x ys =>
            have hlen2 : (printElems (lvl + 1) (.cons x ys)).length + 1 ≤ m := by
              simp only [printAt, List.length_cons, List.length_append, indentJ,
                List.length_replicate, List.length_singleton] at hlen
              omega
            have hwf2 : wfList (.cons x ys) = true := by simpa [wfB] using hwf
            simp only [parseVal]
            rw [hskip]
            simp only [printAt, List.cons_append, List.append_assoc, List.singleton_append,
              List.nil_append]
            try simp only []
            simp only [reduceIte]
            obtain ⟨c, t0, hhead, hnws, hne⟩ :=
              skipWs_elems_head (lvl + 1) x ys ('\n' :: (indentJ lvl ++ ']' :: rest))
            have happ : parseItems m
                ('\n' :: (printElems (lvl + 1) (.cons x ys) ++
                  ('\n' :: (indentJ lvl ++ ']' :: rest)))) .nil =
                some (JList.nil.app (.cons x ys), rest) := by
              have h0 := ihI x ys lvl ['\n'] rest .nil hwf2 hlen2 (by decide)
              simpa [List.append_assoc, List.singleton_append] using h0
            split
            · rename_i heq
              exact absurd heq (by decide)
            · rw [hhead]
              split
              · rename_i t2 heq
                rw [List.cons_eq_cons] at heq
                exact absurd heq.1 hne
              · rw [happ]
                simp [JList.app]
        | obj kvs =>
          cases kvs with
          | nil =>
            simp only [parseVal]
            rw [hskip]
            simp only [printAt, List.cons_append, List.singleton_append]
            simp [skipWs_not_ws _ (by decide : isJsonWs '}' = false)]
          | cons k v tl =>
            have hlen2 : (printMembers (lvl + 1) (.cons k v tl)).length + 1 ≤ m := by
              simp only [printAt, List.length_cons, List.length_append, indentJ,
                List.length_replicate, List.length_singleton] at hlen
              omega
            have hwfp : nodupKeysB (keysOf (.cons k v tl)) = true ∧
                wfObjVals (.cons k v tl) = true := by
              simpa [wfB, Bool.and_eq_true] using hwf
            simp only [parseVal]
            rw [hskip]
            simp only [printAt, List.cons_append, List.append_assoc, List.singleton_append,
              List.nil_append]
            try simp only []
            simp only [reduceIte]
            obtain ⟨tail, ht⟩ := printMembers_shape (lvl + 1) k v tl
            have hhead := skipWs_members_head (lvl + 1) k v tl
              ('\n' :: (indentJ lvl ++ '}' :: rest)) tail ht
            have happ : parseMembers m
                ('\n' :: (printMembers (lvl + 1) (.cons k v tl) ++
                  ('\n' :: (indentJ lvl ++ '}' :: rest)))) .nil =
                some (JObj.nil.appO (.cons k v tl), rest) := by
              have h0 := ihM k v tl lvl ['\n'] rest .nil hwfp.2 hwfp.1
                (fun k2 _ => rfl) hlen2 (by decide)
              simpa [List.append_assoc, List.singleton_append] using h0
            split
            · rename_i heq
              exact absurd heq (by decide)
            · split
              · rename_i heq
                exact absurd heq (by decide)
              · rw [hhead]
                split
                · rename_i t2 heq
                  rw [List.cons_eq_cons] at heq
                  exact absurd heq.1 (by decide)
                · rw [happ]
                  simp [JObj.appO]
      · intro x0 xs0 lvl wsp rest acc hwf hlen hwsp
        simp only [wfList, Bool.and_eq_true] at hwf
        cases xs0 with
        | nil =>
          have hlen2 : (printAt (lvl + 1) x0).length + 1 ≤ m := by
            simp only [printElems, List.length_append, indentJ, List.length_replicate] at hlen
            omega
          have hV : parseVal m
              ((wsp ++ indentJ (lvl + 1)) ++ printAt (lvl + 1) x0 ++
                ('\n' :: (indentJ lvl ++ ']' :: rest))) =
              some (x0, '\n' :: (indentJ lvl ++ ']' :: rest)) :=
            ihV x0 (lvl + 1) (wsp ++ indentJ (lvl + 1)) ('\n' :: (indentJ lvl ++ ']' :: rest))
              hwf.1 hlen2 (by simp [List.all_append, hwsp, indentJ_all_ws])
              (by simp only [headNot]; decide)
          simp only [parseItems]
          rw [show (wsp ++ printElems (lvl + 1) (.cons x0 .nil) ++
              ('\n' :: (indentJ lvl ++ ']' :: rest))) =
            ((wsp ++ indentJ (lvl + 1)) ++ printAt (lvl + 1) x0 ++
              ('\n' :: (indentJ lvl ++ ']' :: rest))) from by
            simp [printElems, List.append_assoc]]
          rw [hV]
          try simp only []
          rw [skipWs_close lvl ']' rest (by decide)]
          try simp only []
          rw [JList_snoc_eq]
        | cons y ys =>
          have hlen2 : (printAt (lvl + 1) x0).length + 1 ≤ m ∧
              (printElems (lvl + 1) (.cons y ys)).length + 1 ≤ m := by
            simp only [printElems, List.length_append, List.length_cons, indentJ,
              List.length_replicate] at hlen
            constructor <;> omega
          have hV : parseVal m
              ((wsp ++ indentJ (lvl + 1)) ++ printAt (lvl + 1) x0 ++
                (',' :: '\n' :: (printElems (lvl + 1) (.cons y ys) ++
                  ('\n' :: (indentJ lvl ++ ']' :: rest))))) =
              some (x0, ',' :: '\n' :: (printElems (lvl + 1) (.cons y ys) ++
                ('\n' :: (indentJ lvl ++ ']' :: rest)))) :=
            ihV x0 (lvl + 1) (wsp ++ indentJ (lvl + 1)) _
              hwf.1 hlen2.1 (by simp [List.all_append, hwsp, indentJ_all_ws])
              (by simp only [headNot]; decide)
          simp only [parseItems]
          rw [show (wsp ++ printElems (lvl + 1) (.cons x0 (.cons y ys)) ++
              ('\n' :: (indentJ lvl ++ ']' :: rest))) =
            ((wsp ++ indentJ (lvl + 1)) ++ printAt (lvl + 1) x0 ++
              (',' :: '\n' :: (printElems (lvl + 1) (.cons y ys) ++
                ('\n' :: (indentJ lvl ++ ']' :: rest))))) from by
            simp [printElems, List.append_assoc]]
          rw [hV]
          try simp only []
          rw [skipWs_not_ws _ (by decide : isJsonWs ',' = false)]
          try simp only []
          have happ : parseItems m
              ('\n' :: (printElems (lvl + 1) (.cons y ys) ++
                ('\n' :: (indentJ lvl ++ ']' :: rest)))) (acc.snoc x0) =
              some ((acc.snoc x0).app (.cons y ys), rest) := by
            have h0 := ihI y ys lvl ['\n'] rest (acc.snoc x0) hwf.2 hlen2.2 (by decide)
            simpa [List.append_assoc, List.singleton_append] using h0
          rw [happ, JList_app_snoc]
      · intro k0 v0 kvs0 lvl wsp rest acc hvals hnodup hfresh hlen hwsp
        simp only [wfObjVals, Bool.and_eq_true] at hvals
        have hk0 : keyMemB acc k0 = false := hfresh k0 (by simp [keysOf])
        cases kvs0 with
        | nil =>
          have hlen2 : (printAt (lvl + 1) v0).length + 1 ≤ m := by
            simp only [printMembers, quoteStr, List.length_append, List.length_cons, indentJ,
              List.length_replicate] at hlen
            omega
          have hV : parseVal m
              ([' '] ++ printAt (lvl + 1) v0 ++ ('\n' :: (indentJ lvl ++ '}' :: rest))) =
              some (v0, '\n' :: (indentJ lvl ++ '}' :: rest)) :=
            ihV v0 (lvl + 1) [' '] ('\n' :: (indentJ lvl ++ '}' :: rest))
              hvals.1 hlen2 (by decide) (by simp only [headNot]; decide)
          simp only [parseMembers]
          rw [show (wsp ++ printMembers (lvl + 1) (.cons k0 v0 .nil) ++
              ('\n' :: (indentJ lvl ++ '}' :: rest))) =
            ((wsp ++ indentJ (lvl + 1)) ++
              ('"' :: (escapeList k0 ++ '"' ::
                (':' :: ' ' :: (printAt (lvl + 1) v0 ++
                  ('\n' :: (indentJ lvl ++ '}' :: rest))))))) from by
            simp [printMembers, quoteStr, List.append_assoc]]
          rw [skipWs_all_append _ (by simp [List.all_append, hwsp, indentJ_all_ws]),
            skipWs_not_ws _ (by decide : isJsonWs '"' = false)]
          try simp only []
          rw [parseStrBody_escape]
          try simp only []
          rw [skipWs_not_ws _ (by decide : isJsonWs ':' = false)]
          try simp only []
          rw [show (' ' :: (printAt (lvl + 1) v0 ++ ('\n' :: (indentJ lvl ++ '}' :: rest)))) =
            ([' '] ++ printAt (lvl + 1) v0 ++ ('\n' :: (indentJ lvl ++ '}' :: rest))) from by
            simp]
          rw [hV]
          try simp only []
          rw [skipWs_close lvl '}' rest (by decide)]
          try simp only []
          rw [insertKV_fresh acc k0 v0 hk0]
        | cons k1 v1 kvs1 =>
          have hlen2 : (printAt (lvl + 1) v0).length + 1 ≤ m ∧
              (printMembers (lvl + 1) (.cons k1 v1 kvs1)).length + 1 ≤ m := by
            simp only [printMembers, quoteStr, List.length_append, List.length_cons, indentJ,
              List.length_replicate] at hlen
            constructor <;> omega
          have hnd : (keysOf (.cons k1 v1 kvs1)).contains k0 = false ∧
              nodupKeysB (keysOf (.cons k1 v1 kvs1)) = true := by
            simpa [keysOf, nodupKeysB, Bool.and_eq_true] using hnodup
          have hV : parseVal m
              ([' '] ++ printAt (lvl + 1) v0 ++
                (',' :: '\n' :: (printMembers (lvl + 1) (.cons k1 v1 kvs1) ++
                  ('\n' :: (indentJ lvl ++ '}' :: rest))))) =
              some (v0, ',' :: '\n' :: (printMembers (lvl + 1) (.cons k1 v1 kvs1) ++
                ('\n' :: (indentJ lvl ++ '}' :: rest)))) :=
            ihV v0 (lvl + 1) [' '] _ hvals.1 hlen2.1 (by decide)
              (by simp only [headNot]; decide)
          simp only [parseMembers]
          rw [show (wsp ++ printMembers (lvl + 1) (.cons k0 v0 (.cons k1 v1 kvs1)) ++
              ('\n' :: (indentJ lvl ++ '}' :: rest))) =
            ((wsp ++ indentJ (lvl + 1)) ++
              ('"' :: (escapeList k0 ++ '"' ::
                (':' :: ' ' :: (printAt (lvl + 1) v0 ++
                  (',' :: '\n' :: (printMembers (lvl + 1) (.cons k1 v1 kvs1) ++
                    ('\n' :: (indentJ lvl ++ '}' :: rest))))))))) from by
            simp [printMembers, quoteStr, List.append_assoc]]
          rw [skipWs_all_append _ (by simp [List.all_append, hwsp, indentJ_all_ws]),
            skipWs_not_ws _ (by decide : isJsonWs '"' = false)]
          try simp only []
          rw [parseStrBody_escape]
          try simp only []
          rw [skipWs_not_ws _ (by decide : isJsonWs ':' = false)]
          try simp only []
          rw [show (' ' :: (printAt (lvl + 1) v0 ++
              (',' :: '\n' :: (printMembers (lvl + 1) (.cons k1 v1 kvs1) ++
                ('\n' :: (indentJ lvl ++ '}' :: rest)))))) =
            ([' '] ++ printAt (lvl + 1) v0 ++
              (',' :: '\n' :: (printMembers (lvl + 1) (.cons k1 v1 kvs1) ++
                ('\n' :: (indentJ lvl ++ '}' :: rest))))) from by simp]
          rw [hV]
          try simp only []
          rw [skipWs_not_ws _ (by decide : isJsonWs ',' = false)]
          try simp only []
          have hk0mem : k0 ∉ keysOf (JObj.cons k1 v1 kvs1) := by simpa using hnd.1
          have hfresh2 : ∀ k2 ∈ keysOf (.cons k1 v1 kvs1),
              keyMemB (insertKV acc k0 v0) k2 = false := by
            intro k2 hk2
            rw [insertKV_fresh acc k0 v0 hk0, keyMemB_false_iff, keysOf_appO]
            simp only [keysOf, List.mem_append, List.mem_cons, List.not_mem_nil, or_false,
              not_or]
            refine ⟨(keyMemB_false_iff _ _).mp (hfresh k2 (by
              simp only [keysOf, List.mem_cons] at hk2 ⊢
              exact Or.inr hk2)), ?_⟩
            intro he
            subst he
            exact hk0mem hk2
          have happ : parseMembers m
              ('\n' :: (printMembers (lvl + 1) (.cons k1 v1 kvs1) ++
                ('\n' :: (indentJ lvl ++ '}' :: rest)))) (insertKV acc k0 v0) =
              some ((insertKV acc k0 v0).appO (.cons k1 v1 kvs1), rest) := by
            have h0 := ihM k1 v1 kvs1 lvl ['\n'] rest (insertKV acc k0 v0)
              hvals.2 hnd.2 hfresh2 hlen2.2 (by decide)
            simpa [List.append_assoc, List.singleton_append] using h0
          rw [happ, insertKV_fresh acc k0 v0 hk0, JObj_appO_assoc]
          simp [JObj.appO]

theorem wfList_snoc : ∀ (acc : JList) (v : Json),
    wfList acc = true → wfB v = true → wfList (acc.snoc v) = true
  | .nil, v, _, hv => by simp [JList.snoc, wfList, hv]
  | .cons x xs, v, h, hv => by
    simp only [wfList, Bool.and_eq_true] at h
    simp only [JList.snoc, wfList, Bool.and_eq_true, h.1, true_and]
    exact wfList_snoc xs v h.2 hv

theorem mem_keysOf_insertKV : ∀ (o : JObj) (k x : List Char) (v : Json),
    x ∈ keysOf (insertKV o k v) → x ∈ keysOf o ∨ x = k
  | .nil, k, x, v, h => by
    simp only [insertKV, keysOf, List.mem_cons, List.not_mem_nil, or_false] at h
    exact Or.inr h
  | .cons k0 v0 tl, k, x, v, h => by
    by_cases he : k0 = k
    · simp only [insertKV, if_pos he, keysOf, List.mem_cons] at h ⊢
      tauto
    · simp only [insertKV, if_neg he, keysOf, List.mem_cons] at h ⊢
      rcases h with h | h
      · tauto
      · rcases mem_keysOf_insertKV tl k x v h with h2 | h2 <;> tauto

theorem nodup_insertKV : ∀ (o : JObj) (k : List Char) (v : Json),
    nodupKeysB (keysOf o) = true → nodupKeysB (keysOf (insertKV o k v)) = true
  | .nil, k, v, _ => by simp [insertKV, keysOf, nodupKeysB]
  | .cons k0 v0 tl, k, v, h => by
    simp only [keysOf, nodupKeysB, Bool.and_eq_true, Bool.not_eq_true',
      List.elem_eq_mem, decide_eq_false_iff_not] at h
    by_cases he : k0 = k
    · simp only [insertKV, if_pos he, keysOf, nodupKeysB, Bool.and_eq_true,
        Bool.not_eq_true', List.elem_eq_mem, decide_eq_false_iff_not]
      exact ⟨h.1, h.2⟩
    · simp only [insertKV, if_neg he, keysOf, nodupKeysB, Bool.and_eq_true,
        Bool.not_eq_true', List.elem_eq_mem, decide_eq_false_iff_not]
      refine ⟨?_, nodup_insertKV tl k v h.2⟩
      intro hmem
      rcases mem_keysOf_insertKV tl k k0 v hmem with h2 | h2
      · exact h.1 h2
      · exact he h2

theorem wfObjVals_insertKV : ∀ (o : JObj) (k : List Char) (v : Json),
    wfObjVals o = true → wfB v = true → wfObjVals (insertKV o k v) = true
  | .nil, k, v, _, hv => by simp [insertKV, wfObjVals, hv]
  | .cons k0 v0 tl, k, v, h, hv => by
    simp only [wfObjVals, Bool.and_eq_true] at h
    by_cases he : k0 = k
    · simp [insertKV, if_pos he, wfObjVals, hv, h.2]
    · simp only [insertKV, if_neg he, wfObjVals, Bool.and_eq_true, h.1, true_and]
      exact wfObjVals_insertKV tl k v h.2 hv

theorem parseVal_wf : ∀ n : Nat,
    (∀ (cs : List Char) (v : Json) (r : List Char),
      parseVal n cs = some (v, r) → wfB v = true) ∧
    (∀ (cs : List Char) (acc xs : JList) (r : List Char),
      parseItems n cs acc = some (xs, r) → wfList acc = true → wfList xs = true) ∧
    (∀ (cs : List Char) (acc kvs : JObj) (r : List Char),
      parseMembers n cs acc = some (kvs, r) →
      nodupKeysB (keysOf acc) = true → wfObjVals acc = true →
      nodupKeysB (keysOf kvs) = true ∧ wfObjVals kvs = true) := by
  intro n
  induction n using Nat.strong_induction_on with
  | _ n ih =>
    cases n with
    | zero =>
      refine ⟨?_, ?_, ?_⟩
      · intro cs v r h; exact absurd h (by simp [parseVal])
      · intro cs acc xs r h; exact absurd h (by simp [parseItems])
      · intro cs acc kvs r h; exact absurd h (by simp [parseMembers])
    | succ m =>
      obtain ⟨ihV, ihI, ihM⟩ := ih m (Nat.lt_succ_self m)
      refine ⟨?_, ?_, ?_⟩
      · intro cs v r h
        simp only [parseVal] at h
        split at h
        · exact absurd h (by simp)
        · split_ifs at h with h1 h2 h3 h4 h5 h6 h7
          · split at h
            · simp only [Option.some.injEq, Prod.mk.injEq] at h
              obtain ⟨hv, -⟩ := h
              subst hv
              simp [wfB]
            · exact absurd h (by simp)
          · split at h
            · simp only [Option.some.injEq, Prod.mk.injEq] at h
              obtain ⟨hv, -⟩ := h
              subst hv
              simp [wfB, wfList]
            · split at h
              · rename_i xs2 r2 heq
                simp only [Option.some.injEq, Prod.mk.injEq] at h
                obtain ⟨hv, -⟩ := h
                subst hv
                simp only [wfB]
                exact ihI _ _ _ _ heq (by simp [wfList])
              · exact absurd h (by simp)
          · split at h
            · simp only [Option.some.injEq, Prod.mk.injEq] at h
              obtain ⟨hv, -⟩ := h
              subst hv
              simp [wfB, nodupKeysB, wfObjVals, keysOf]
            · split at h
              · rename_i kvs2 r2 heq
                simp only [Option.some.injEq, Prod.mk.injEq] at h
                obtain ⟨hv, -⟩ := h
                subst hv
                simp only [wfB, Bool.and_eq_true]
                exact ihM _ _ _ _ heq (by simp [keysOf, nodupKeysB]) (by simp [wfObjVals])
              · exact absurd h (by simp)
          · split at h
            · simp only [Option.some.injEq, Prod.mk.injEq] at h
              obtain ⟨hv, -⟩ := h
              subst hv
              simp [wfB]
            · exact absurd h (by simp)
          · split at h
            · simp only [Option.some.injEq, Prod.mk.injEq] at h
              obtain ⟨hv, -⟩ := h
              subst hv
              simp [wfB]
            · exact absurd h (by simp)
          · split at h
            · simp only [Option.some.injEq, Prod.mk.injEq] at h
              obtain ⟨hv, -⟩ := h
              subst hv
              simp [wfB]
            · exact absurd h (by simp)
          · simp only [Option.some.injEq, Prod.mk.injEq] at h
            obtain ⟨hv, -⟩ := h
            subst hv
            simp [wfB]
      · intro cs acc xs r h hacc
        simp only [parseItems] at h
        split at h
        · rename_i v2 r2 heq
          split at h
          · exact ihI _ _ _ _ h (wfList_snoc acc v2 hacc (ihV _ _ _ heq))
          · simp only [Option.some.injEq, Prod.mk.injEq] at h
            obtain ⟨hv, -⟩ := h
            subst hv
            exact wfList_snoc acc v2 hacc (ihV _ _ _ heq)
          · exact absurd h (by simp)
        · exact absurd h (by simp)
      · intro cs acc kvs r h hnd hvals
        simp only [parseMembers] at h
        split at h
        · split at h
          · rename_i k2 r1 heq2
            split at h
            · split at h
              · rename_i v2 r3 heq4
                split at h
                · exact ihM _ _ _ _ h (nodup_insertKV acc k2 v2 hnd)
                    (wfObjVals_insertKV acc k2 v2 hvals (ihV _ _ _ heq4))
                · simp only [Option.some.injEq, Prod.mk.injEq] at h
                  obtain ⟨hv, -⟩ := h
                  subst hv
                  exact ⟨nodup_insertKV acc k2 v2 hnd,
                    wfObjVals_insertKV acc k2 v2 hvals (ihV _ _ _ heq4)⟩
                · exact absurd h (by simp)
              · exact absurd h (by simp)
            · exact absurd h (by simp)
          · exact absurd h (by simp)
        · exact absurd h (by simp)

theorem parseJson_wf (cs : List Char) (v : Json) (h : parseJson cs = some v) :
    wfB v = true := by
  unfold parseJson at h
  split at h
  · rename_i v2 r2 heq
    split_ifs at h
    simp only [Option.some.injEq] at h
    subst h
    exact (parseVal_wf _).1 _ _ _ heq
  · exact absurd h (by simp)

theorem mem_keysOf_removeKey : ∀ (o : JObj) (k x : List Char),
    x ∈ keysOf (removeKey o k) → x ∈ keysOf o
  | .nil, _, _, h => h
  | .cons k0 v0 tl, k, x, h => by
    by_cases he : k0 = k
    · simp only [removeKey, if_pos he] at h
      exact List.mem_cons_of_mem _ (mem_keysOf_removeKey tl k x h)
    · simp only [removeKey, if_neg he, keysOf, List.mem_cons] at h ⊢
      rcases h with h | h
      · exact Or.inl h
      · exact Or.inr (mem_keysOf_removeKey tl k x h)

theorem nodup_removeKey : ∀ (o : JObj) (k : List Char),
    nodupKeysB (keysOf o) = true → nodupKeysB (keysOf (removeKey o k)) = true
  | .nil, _, h => h
  | .cons k0 v0 tl, k, h => by
    simp only [keysOf, nodupKeysB, Bool.and_eq_true, Bool.not_eq_true',
      List.elem_eq_mem, decide_eq_false_iff_not] at h
    by_cases he : k0 = k
    · simp only [removeKey, if_pos he]
      exact nodup_removeKey tl k h.2
    · simp only [removeKey, if_neg he, keysOf, nodupKeysB, Bool.and_eq_true,
        Bool.not_eq_true', List.elem_eq_mem, decide_eq_false_iff_not]
      exact ⟨fun hm => h.1 (mem_keysOf_removeKey tl k k0 hm), nodup_removeKey tl k h.2⟩

theorem wfObjVals_removeKey : ∀ (o : JObj) (k : List Char),
    wfObjVals o = true → wfObjVals (removeKey o k) = true
  | .nil, _, h => h
  | .cons k0 v0 tl, k, h => by
    simp only [wfObjVals, Bool.and_eq_true] at h
    by_cases he : k0 = k
    · simp only [removeKey, if_pos he]
      exact wfObjVals_removeKey tl k h.2
    · simp only [removeKey, if_neg he, wfObjVals, Bool.and_eq_true, h.1, true_and]
      exact wfObjVals_removeKey tl k h.2

theorem keyMemB_removeKey_self : ∀ (o : JObj) (k : List Char),
    keyMemB (removeKey o k) k = false
  | .nil, _ => rfl
  | .cons k0 v0 tl, k => by
    by_cases he : k0 = k
    · simp only [removeKey, if_pos he]
      exact keyMemB_removeKey_self tl k
    · simp only [removeKey, if_neg he, keyMemB, keysOf, List.elem_eq_mem, List.mem_cons,
        decide_eq_false_iff_not, not_or]
      have h2 := keyMemB_removeKey_self tl k
      simp only [keyMemB, List.elem_eq_mem, decide_eq_false_iff_not] at h2
      exact ⟨fun e => he e.symm, h2⟩

theorem keyMemB_removeKey_mono : ∀ (o : JObj) (k k2 : List Char),
    keyMemB o k2 = false → keyMemB (removeKey o k) k2 = false
  | o, k, k2, h => by
    simp only [keyMemB, List.elem_eq_mem, decide_eq_false_iff_not] at h ⊢
    exact fun hm => h (mem_keysOf_removeKey o k k2 hm)

theorem wfB_deleteKeyJ (j : Json) (k : List Char) (h : wfB j = true) :
    wfB (deleteKeyJ j k) = true := by
  cases j with
  | obj kvs =>
    simp only [wfB, Bool.and_eq_true] at h
    simp only [deleteKeyJ, wfB, Bool.and_eq_true]
    exact ⟨nodup_removeKey kvs k h.1, wfObjVals_removeKey kvs k h.2⟩
  | null => exact h
  | bool b => exact h
  | num n => exact h
  | str s => exact h
  | arr xs => exact h

theorem parseJson_print (v : Json) (h : wfB v = true) :
    parseJson (printAt 0 v) = some v := by
  unfold parseJson
  have hm := (parse_print_main ((printAt 0 v).length + 1)).1 v 0 [] [] h (le_refl _) rfl trivial
  simp only [List.nil_append, List.append_nil] at hm
  rw [hm]
  simp

/-- Claim C8: sanitization is idempotent at the serialization level — for every
source-map text emitted by the Transpiler, parsing it as structured JSON and
re-serializing it with the same two-space indentation yields a byte-identical
string. -/
theorem sanitized_map_roundtrip (cwd raw m : String)
    (h : sanitizeMapText cwd raw = some m) : reSerialize m = some m := by
  unfold sanitizeMapText at h
  split at h
  · rename_i v heq
    simp only [Option.some.injEq] at h
    subst h
    have hwf2 : wfB (deleteKeyJ (deleteKeyJ v "file".data) "sourcesContent".data) = true :=
      wfB_deleteKeyJ _ _ (wfB_deleteKeyJ _ _ (parseJson_wf _ _ heq))
    show (parseJson (printAt 0 (deleteKeyJ (deleteKeyJ v "file".data)
      "sourcesContent".data))).map _ = _
    rw [parseJson_print _ hwf2]
    rfl
  · exact absurd h (by simp)

/-- Witness for `sanitized_map_roundtrip` on a concrete raw compiler map. -/
theorem sanitized_map_roundtrip_witness :
    sanitizeMapText "/w"
        "\x7b\"version\":3,\"file\":\"o.css\",\"sources\":[\"/w/a.scss\"],\"mappings\":\"AAAA\"\x7d" =
      some "\x7b\n  \"version\": 3,\n  \"sources\": [\n    \"/a.scss\"\n  ],\n  \"mappings\": \"AAAA\"\n\x7d" ∧
    reSerialize
        "\x7b\n  \"version\": 3,\n  \"sources\": [\n    \"/a.scss\"\n  ],\n  \"mappings\": \"AAAA\"\n\x7d" =
      some "\x7b\n  \"version\": 3,\n  \"sources\": [\n    \"/a.scss\"\n  ],\n  \"mappings\": \"AAAA\"\n\x7d" := by
  constructor
  · decide
  · exact sanitized_map_roundtrip "/w"
      "\x7b\"version\":3,\"file\":\"o.css\",\"sources\":[\"/w/a.scss\"],\"mappings\":\"AAAA\"\x7d"
      _ (by decide)

theorem sanitize_no_keys (cwd raw m : String) (h : sanitizeMapText cwd raw = some m) :
    hasKeyStr m "file" = false ∧ hasKeyStr m "sourcesContent" = false := by
  unfold sanitizeMapText at h
  split at h
  · rename_i v heq
    simp only [Option.some.injEq] at h
    subst h
    have hwf2 : wfB (deleteKeyJ (deleteKeyJ v "file".data) "sourcesContent".data) = true :=
      wfB_deleteKeyJ _ _ (wfB_deleteKeyJ _ _ (parseJson_wf _ _ heq))
    unfold hasKeyStr
    rw [show (String.mk (printAt 0 (deleteKeyJ (deleteKeyJ v "file".data)
        "sourcesContent".data))).data =
      printAt 0 (deleteKeyJ (deleteKeyJ v "file".data) "sourcesContent".data) from rfl]
    rw [parseJson_print _ hwf2]
    cases v with
    | obj kvs =>
      simp only [deleteKeyJ]
      exact ⟨keyMemB_removeKey_mono _ _ _ (keyMemB_removeKey_self kvs "file".data),
        keyMemB_removeKey_self _ _⟩
    | null => exact ⟨rfl, rfl⟩
    | bool b => exact ⟨rfl, rfl⟩
    | num n => exact ⟨rfl, rfl⟩
    | str s => exact ⟨rfl, rfl⟩
    | arr xs => exact ⟨rfl, rfl⟩
  · exact absurd h (by simp)

/-- Claim C1 (amended): for a successful compile whose stripped map text parses as
JSON, `transpile` emits exactly two derived records in order — `<name>.css` with
the compiled CSS, then `<name>.css.map` with the sanitized two-space-indented
map — both sharing the input's base and working directory, and the written map
has no `file` key and no `sourcesContent` key.  The claim's further condition
that no `sources` entry contains the working-directory prefix or a `../` segment
does not hold of the code: the sanitizer makes a single left-to-right removal
pass over the raw text, and removal can splice the kept characters around a
match into a new occurrence (see the counterexample). -/
theorem transpile_success_outputs (f : SrcFile) (css raw m : String)
    (h : sanitizeMapText f.cwd raw = some m) :
    transpileOne f (.success css raw) =
      some [pushResult f ".css" (.text css), pushResult f ".css.map" (.text m)] ∧
    (pushResult f ".css" (.text css)).contents = some css ∧
    (pushResult f ".css.map" (.text m)).contents = some m ∧
    (pushResult f ".css" (.text css)).path =
      sourcePathS f.path ++ sourceNameS f.path ++ ".css" ∧
    (pushResult f ".css.map" (.text m)).path =
      sourcePathS f.path ++ sourceNameS f.path ++ ".css.map" ∧
    (pushResult f ".css" (.text css)).base = f.base ∧
    (pushResult f ".css" (.text css)).cwd = f.cwd ∧
    (pushResult f ".css.map" (.text m)).base = f.base ∧
    (pushResult f ".css.map" (.text m)).cwd = f.cwd ∧
    (pushResult f ".css" (.text css)).sassError = none ∧
    (pushResult f ".css.map" (.text m)).sassError = none ∧
    hasKeyStr m "file" = false ∧ hasKeyStr m "sourcesContent" = false := by
  have hk := sanitize_no_keys f.cwd raw m h
  refine ⟨?_, rfl, rfl, rfl, rfl, rfl, rfl, rfl, rfl, rfl, rfl, hk.1, hk.2⟩
  simp only [transpileOne, h]

/-- Witness for `transpile_success_outputs` at a concrete file and raw map. -/
theorem transpile_success_outputs_witness :
    sanitizeMapText "/w"
        "\x7b\"version\":3,\"file\":\"o.css\",\"sources\":[\"/w/a.scss\"],\"mappings\":\"AAAA\"\x7d" =
      some "\x7b\n  \"version\": 3,\n  \"sources\": [\n    \"/a.scss\"\n  ],\n  \"mappings\": \"AAAA\"\n\x7d" ∧
    transpileOne ⟨"/w", "/w/", "/w/style.scss"⟩ (.success "c"
        "\x7b\"version\":3,\"file\":\"o.css\",\"sources\":[\"/w/a.scss\"],\"mappings\":\"AAAA\"\x7d") =
      some [pushResult ⟨"/w", "/w/", "/w/style.scss"⟩ ".css" (.text "c"),
        pushResult ⟨"/w", "/w/", "/w/style.scss"⟩ ".css.map" (.text
          "\x7b\n  \"version\": 3,\n  \"sources\": [\n    \"/a.scss\"\n  ],\n  \"mappings\": \"AAAA\"\n\x7d")] ∧
    hasKeyStr
        "\x7b\n  \"version\": 3,\n  \"sources\": [\n    \"/a.scss\"\n  ],\n  \"mappings\": \"AAAA\"\n\x7d"
        "file" = false := by
  have h := transpile_success_outputs ⟨"/w", "/w/", "/w/style.scss"⟩ "c"
    "\x7b\"version\":3,\"file\":\"o.css\",\"sources\":[\"/w/a.scss\"],\"mappings\":\"AAAA\"\x7d"
    "\x7b\n  \"version\": 3,\n  \"sources\": [\n    \"/a.scss\"\n  ],\n  \"mappings\": \"AAAA\"\n\x7d"
    (by decide)
  exact ⟨by decide, h.1, h.2.2.2.2.2.2.2.2.2.2.2.1⟩

/-- Claim C1 counterexample: with working directory `/work` and a raw map whose
only sources entry is `/wor/workk`, the single removal pass deletes the match
starting after `/wor` and splices the kept characters into `/work`: the emitted
`.css.map`, parsed as JSON, has a `sources` entry containing the working
directory's absolute prefix, refuting the claim as stated. -/
theorem transpile_success_bad_source :
    transpileOne ⟨"/work", "/work/", "/work/style.scss"⟩ (.success "c"
        "\x7b\"version\":3,\"sources\":[\"/wor/workk\"],\"mappings\":\"\"\x7d") =
      some [{ cwd := "/work", base := "/work/", path := "/work/style.css",
              contents := some "c", sassError := none, sassSource := none },
            { cwd := "/work", base := "/work/", path := "/work/style.css.map",
              contents := some
                "\x7b\n  \"version\": 3,\n  \"sources\": [\n    \"/work\"\n  ],\n  \"mappings\": \"\"\n\x7d",
              sassError := none, sassSource := none }] ∧
    hasBadSource
        "\x7b\n  \"version\": 3,\n  \"sources\": [\n    \"/work\"\n  ],\n  \"mappings\": \"\"\n\x7d"
        "/work" = true := by
  constructor
  · decide
  · decide

/-- Claim C5 counterexample: a record with null contents that carries BOTH
side-channel fields, but whose attached error text is the empty string, is not
classified as an error marker (JavaScript truthiness of `file.sassError`) and is
forwarded unchanged — refuting the claimed "if and only if". -/
theorem reporter_empty_error_not_marker :
    isErrorMarker
      { cwd := "/c", base := "/b", path := "/p.css", contents := none,
        sassError := some "", sassSource := some ⟨"/c", "/b", "/s.scss"⟩ } = false ∧
    (OutRecord.contents
      { cwd := "/c", base := "/b", path := "/p.css", contents := none,
        sassError := some "", sassSource := some ⟨"/c", "/b", "/s.scss"⟩ }) = none ∧
    (OutRecord.sassError
      { cwd := "/c", base := "/b", path := "/p.css", contents := none,
        sassError := some "", sassSource := some ⟨"/c", "/b", "/s.scss"⟩ }).isSome = true ∧
    (OutRecord.sassSource
      { cwd := "/c", base := "/b", path := "/p.css", contents := none,
        sassError := some "", sassSource := some ⟨"/c", "/b", "/s.scss"⟩ }).isSome = true ∧
    reporterStep "/cwd" []
      { cwd := "/c", base := "/b", path := "/p.css", contents := none,
        sassError := some "", sassSource := some ⟨"/c", "/b", "/s.scss"⟩ } =
      .ok ([], some
        { cwd := "/c", base := "/b", path := "/p.css", contents := none,
          sassError := some "", sassSource := some ⟨"/c", "/b", "/s.scss"⟩ }) := by
  refine ⟨rfl, rfl, rfl, rfl, rfl⟩

/-- Claim C5 (amended): a record is classified as an error marker if and only if
it has null contents, a non-empty attached error text, and an attached source
file; error markers are never forwarded downstream, and every other record is
forwarded unchanged with the buffer untouched. -/
theorem reporter_classification (procCwd : String) (st : List String) (r : OutRecord) :
    (isErrorMarker r = true ↔
      r.contents = none ∧ (∃ e, r.sassError = some e ∧ e ≠ "") ∧
        r.sassSource.isSome = true) ∧
    (isErrorMarker r = true →
      ∀ st2 out, reporterStep procCwd st r = .ok (st2, out) → out = none) ∧
    (isErrorMarker r = false → reporterStep procCwd st r = .ok (st, some r)) := by
  obtain ⟨cwd, base, path, contents, se, ss⟩ := r
  cases contents with
  | some c => simp [isErrorMarker, truthyS, reporterStep]
  | none =>
    cases se with
    | none => simp [isErrorMarker, truthyS, reporterStep]
    | some e =>
      cases ss with
      | none => simp [isErrorMarker, truthyS, reporterStep]
      | some src =>
        by_cases he : e = ""
        · subst he
          simp [isErrorMarker, truthyS, reporterStep]
        · refine ⟨?_, ?_, ?_⟩
          · simp [isErrorMarker, truthyS, he]
          · intro _ st2 out hstep
            simp only [reporterStep, if_neg he] at hstep
            split at hstep
            · simp only [Except.ok.injEq, Prod.mk.injEq] at hstep
              exact hstep.2.symm
            · exact absurd hstep (by simp)
          · intro hfalse
            exact absurd hfalse (by simp [isErrorMarker, truthyS, he])

/-- Witness for `reporter_classification`: a genuine marker is not forwarded and
a marker-free record passes through unchanged. -/
theorem reporter_classification_witness :
    isErrorMarker
      { cwd := "/c", base := "/b", path := "/p.css", contents := none,
        sassError := some "a:1: error: x",
        sassSource := some ⟨"/c", "/b", "/s.scss"⟩ } = true ∧
    (∀ st2 out, reporterStep "/cwd" []
      { cwd := "/c", base := "/b", path := "/p.css", contents := none,
        sassError := some "a:1: error: x",
        sassSource := some ⟨"/c", "/b", "/s.scss"⟩ } =
      .ok (st2, out) → out = none) ∧
    isErrorMarker
      { cwd := "/c", base := "/b", path := "/x.css", contents := some "q",
        sassError := none, sassSource := none } = false ∧
    reporterStep "/cwd" []
      { cwd := "/c", base := "/b", path := "/x.css", contents := some "q",
        sassError := none, sassSource := none } =
      .ok ([], some
        { cwd := "/c", base := "/b", path := "/x.css", contents := some "q",
          sassError := none, sassSource := none }) := by
  refine ⟨by decide, ?_, by decide, ?_⟩
  · exact (reporter_classification "/cwd" []
      { cwd := "/c", base := "/b", path := "/p.css", contents := none,
        sassError := some "a:1: error: x",
        sassSource := some ⟨"/c", "/b", "/s.scss"⟩ }).2.1 (by decide)
  · exact (reporter_classification "/cwd" []
      { cwd := "/c", base := "/b", path := "/x.css", contents := some "q",
        sassError := none, sassSource := none }).2.2 (by decide)

/-- Claim C6 counterexample: the buffered entry carries a trailing newline
(appended at src/index.js line 171), so it is not the bare string
`<path>:<line>:0: <message>` the claim states. -/
theorem reporter_message_trailing_newline :
    reporterStep "/cwd" []
      { cwd := "/c", base := "/b", path := "/p.css", contents := none,
        sassError := some "source string:3: error: boom",
        sassSource := some ⟨"/c", "/b", "/app/x.scss"⟩ } =
      .ok (["/app/x.scss:3:0: boom\n"], none) ∧
    ("/app/x.scss:3:0: boom\n" : String) ≠ "/app/x.scss:3:0: boom" := by
  exact ⟨rfl, by decide⟩

/-- Claim C6 (amended): for an error marker whose raw text matches
`<source>:<line>: error: <message>`, the reporter buffers the formatted message
`<path>:<line>:0: <message>` followed by a newline — `<path>` being the attached
source record's path when the source token is the sentinel `source string`, and
otherwise the token resolved as a filesystem path with `.scss` appended — and
buffers it uniquely: a message already present leaves the buffer unchanged, the
first occurrence keeping its position. -/
theorem reporter_formats_and_dedups (procCwd : String) (st : List String) (r : OutRecord)
    (e : String) (src : SrcFile) (tok line msg : List Char)
    (h1 : r.contents = none) (h2 : r.sassError = some e) (h3 : e ≠ "")
    (h4 : r.sassSource = some src) (h5 : execRe e.data = some (tok, line, msg)) :
    reporterStep procCwd st r =
      .ok ((if formatSassError procCwd src tok line msg ∈ st then st
        else st ++ [formatSassError procCwd src tok line msg]), none) ∧
    formatSassError procCwd src tok line msg =
      (if tok = "source string".data then src.path
        else pathResolve procCwd ⟨tok ++ ".scss".data⟩) ++ ":" ++ (⟨line⟩ : String) ++
        ":0: " ++ (⟨msg⟩ : String) ++ "\n" ∧
    (formatSassError procCwd src tok line msg ∈ st →
      reporterStep procCwd st r = .ok (st, none)) := by
  obtain ⟨cwd, base, path, contents, se, ss⟩ := r
  simp only at h1 h2 h4
  subst h1; subst h2; subst h4
  have hstep : reporterStep procCwd st
      { cwd := cwd, base := base, path := path, contents := none,
        sassError := some e, sassSource := some src } =
      .ok (insertU st (formatSassError procCwd src tok line msg), none) := by
    simp only [reporterStep, if_neg h3, h5]
  refine ⟨?_, rfl, ?_⟩
  · rw [hstep]
    simp [insertU]
  · intro hmem
    rw [hstep]
    simp [insertU, hmem]

/-- Witness for `reporter_formats_and_dedups` on the sentinel source token. -/
theorem reporter_formats_and_dedups_witness :
    execRe "source string:3: error: boom".data =
      some ("source string".data, "3".data, "boom".data) ∧
    reporterStep "/cwd" []
      { cwd := "/c", base := "/b", path := "/p.css", contents := none,
        sassError := some "source string:3: error: boom",
        sassSource := some ⟨"/c", "/b", "/app/x.scss"⟩ } =
      .ok ((if formatSassError "/cwd" ⟨"/c", "/b", "/app/x.scss"⟩
          "source string".data "3".data "boom".data ∈ ([] : List String) then []
        else [] ++ [formatSassError "/cwd" ⟨"/c", "/b", "/app/x.scss"⟩
          "source string".data "3".data "boom".data]), none) := by
  refine ⟨by decide, ?_⟩
  exact (reporter_formats_and_dedups "/cwd" []
    { cwd := "/c", base := "/b", path := "/p.css", contents := none,
      sassError := some "source string:3: error: boom",
      sassSource := some ⟨"/c", "/b", "/app/x.scss"⟩ }
    "source string:3: error: boom" ⟨"/c", "/b", "/app/x.scss"⟩
    "source string".data "3".data "boom".data
    rfl rfl (by decide) rfl (by decide)).1

/-- Claim C9: the claim describes the intended behaviour — log the unparsed
error text — but the fallback branch (src/index.js line 173) reads the
identifier `error`, which is not defined in any enclosing scope, so at this
failing input the transform raises a `ReferenceError` instead of logging. -/
theorem reporter_unparsed_crashes :
    reporterStep "/cwd" []
      { cwd := "/c", base := "/b", path := "/p.css", contents := none,
        sassError := some "weird failure",
        sassSource := some ⟨"/c", "/b", "/s.scss"⟩ } =
      .error .referenceError := by
  rfl

/-- Claim C7: at stream completion nothing at all is written when the buffer is
empty; otherwise one block is written — an optional top banner line of exactly
`bannerWidth` down-pointing glyphs (present iff the width is positive), a blank
line, the buffered messages, and the matching optional bottom banner line; with
width 5 the block is bounded by 5-glyph banner lines, with width 0 or omitted no
banner lines appear. -/
theorem reporter_flush_format (bw : Option Nat) (msgs : List String) :
    (reporterFlush bw msgs = none ↔ msgs = []) ∧
    (msgs ≠ [] → reporterFlush bw msgs =
      some ((if 0 < bw.getD 0 then repChar '▼' (bw.getD 0) ++ "\n" else "") ++ "\n" ++
        String.intercalate "\n" msgs ++ "\n" ++
        (if 0 < bw.getD 0 then repChar '▲' (bw.getD 0) ++ "\n" else ""))) ∧
    (∀ n, (repChar '▼' n).length = n ∧ (repChar '▲' n).length = n) ∧
    (msgs ≠ [] → reporterFlush (some 0) msgs =
      some ("\n" ++ String.intercalate "\n" msgs ++ "\n")) ∧
    (msgs ≠ [] → reporterFlush none msgs =
      some ("\n" ++ String.intercalate "\n" msgs ++ "\n")) := by
  refine ⟨?_, ?_, ?_, ?_, ?_⟩
  · constructor
    · intro h
      by_contra hne
      simp [reporterFlush, hne] at h
    · intro h
      subst h
      rfl
  · intro hne
    simp [reporterFlush, hne]
  · intro n
    constructor <;> simp [repChar, String.length]
  · intro hne
    simp [reporterFlush, hne]
  · intro hne
    simp [reporterFlush, hne]

/-- Witness for `reporter_flush_format` at banner width 5 and one message. -/
theorem reporter_flush_format_witness :
    (["a"] : List String) ≠ [] ∧
    reporterFlush (some 5) ["a"] =
      some ((if 0 < (some 5 : Option Nat).getD 0
          then repChar '▼' ((some 5 : Option Nat).getD 0) ++ "\n" else "") ++ "\n" ++
        String.intercalate "\n" ["a"] ++ "\n" ++
        (if 0 < (some 5 : Option Nat).getD 0
          then repChar '▲' ((some 5 : Option Nat).getD 0) ++ "\n" else "")) := by
  exact ⟨by decide, (reporter_flush_format (some 5) ["a"]).2.1 (by decide)⟩
